import Mathlib

/-!
Shallow embedding of the `aidtopia/zebra` constraint-propagation solver.

The model follows the C++ sources:
* `solver_lib/solver.h` / `solver.cpp` — the `Truth` lattice, `Solution`
  state, `Puzzle::ApplyConstraints` and `Puzzle::Solve`;
* `constraints.h` — the standard constraint catalog (`Fixed`, `IfPThenQ`,
  `Identical`, `ExactlyNOf`, `IfPThenOneOrMoreOfQ`);
* `zebra.cpp` — the inline duplicate of the solver plus `OneIfAny`.

A state is a `List Truth`; reads use `tget` (out-of-range reads yield
`MAYBE`, matching the model's totalization of `operator[]`; all claims
restrict to in-range indices).  `std::size_t` subtraction in `ExactlyNOf`
is modeled with wraparound modulo `2 ^ 64` (`usub`).  The unbounded
`do/while` and work-list loops of `Puzzle::Solve` are modeled with an
explicit fuel parameter; termination of the C++ loops corresponds to
sufficiency of the fuel, which is proved below.
-/

/-- The three-valued truth lattice from `solver.h`: `NO = -1`, `MAYBE = 0`,
`YES = 1`. -/
inductive Truth where
  | no
  | maybe
  | yes
deriving DecidableEq, Repr

/-- Negation `operator!` from `solver.h`: `-t`, so `NO ↔ YES`, `MAYBE` fixed. -/
def tnot : Truth → Truth
  | Truth.no => Truth.yes
  | Truth.maybe => Truth.maybe
  | Truth.yes => Truth.no

/-- Outcome of a constraint evaluation or `Set` call (`enum class Result`). -/
inductive Result where
  | conflict
  | noChange
  | progress
deriving DecidableEq, Repr

/-- Read of `m_table[index]` (`Solution::operator[]`), totalized with
`MAYBE` out of range. -/
def tget (s : List Truth) (i : Nat) : Truth :=
  s.getD i Truth.maybe

namespace Solution

/-- `Solution::Set` from `solver.cpp`: no-op if the slot already holds
`value`, conflict if it holds the opposite definite value, otherwise the
`MAYBE` slot is overwritten.  Returns the `Result` paired with the
(possibly updated) table. -/
def Set (s : List Truth) (index : Nat) (value : Truth) : Result × List Truth :=
  if tget s index = value then (Result.noChange, s)
  else if tget s index ≠ Truth.maybe then (Result.conflict, s)
  else (Result.progress, s.set index value)

/-- `Solution::Count` from `solver.cpp`: how many of the listed indices
currently hold `value`. -/
def Count (s : List Truth) (indexes : List Nat) (value : Truth) : Nat :=
  match indexes with
  | [] => 0
  | i :: rest => (if tget s i = value then 1 else 0) + Count s rest value

/-- `Solution::FirstMaybe` from `solver.cpp`: the position of the first
`MAYBE` slot, or the size of the table when every slot is definite. -/
def FirstMaybe (s : List Truth) : Nat :=
  s.findIdx (fun a => a = Truth.maybe)

end Solution

/-- Number of `MAYBE` slots in a state (the quantity each `PROGRESS`
round strictly decreases). -/
def maybeCount : List Truth → Nat
  | [] => 0
  | a :: rest => (if a = Truth.maybe then 1 else 0) + maybeCount rest

/-- Wraparound subtraction of `std::size_t` values (mod `2 ^ 64`), used to
model `m_number - matches` in `ExactlyNOf::Evaluate`. -/
def usub (a b : Nat) : Nat :=
  (a + (2 ^ 64 - b % 2 ^ 64)) % 2 ^ 64

/-- The standard constraint catalog of `constraints.h`, as a closed datatype.
Each variant stores the constructor arguments of the C++ class (names are
diagnostic only and are omitted). -/
inductive Constraint where
  | Fixed (index : Nat) (value : Truth)
  | IfPThenQ (p q : Nat)
  | Identical (indexes1 indexes2 : List Nat)
  | ExactlyNOf (n : Nat) (indexes : List Nat) (value : Truth)
  | IfPThenOneOrMoreOfQ (p : Nat) (q : List Nat)
deriving DecidableEq, Repr

/-- Second conditional `Set` of one `Identical::Evaluate` loop iteration,
applied to the table already mutated by the first conditional `Set`. -/
def identicalStep2 (s1 : List Truth) (a b : Nat) : List Truth :=
  if tget s1 b = Truth.maybe ∧ tget s1 a ≠ Truth.maybe
  then (Solution.Set s1 b (tget s1 a)).2 else s1

/-- Body of one iteration of the `Identical::Evaluate` loop for the pair
`(a, b)`: the two conditional `Set` calls, sequenced exactly as in the
source (the second test re-reads the table mutated by the first). -/
def identicalStep (s : List Truth) (a b : Nat) : List Truth :=
  identicalStep2
    (if tget s a = Truth.maybe ∧ tget s b ≠ Truth.maybe
     then (Solution.Set s a (tget s b)).2 else s) a b

/-- Whether the `Identical` pair `(a, b)` triggers one of the two early
`CONFLICT` returns. -/
def identicalConflict (s : List Truth) (a b : Nat) : Prop :=
  (tget s a = Truth.yes ∧ tget s b = Truth.no) ∨
  (tget s b = Truth.yes ∧ tget s a = Truth.no)

instance (s : List Truth) (a b : Nat) : Decidable (identicalConflict s a b) := by
  unfold identicalConflict; infer_instance

/-- Whether the `Identical` pair `(a, b)` fires one of the two `Set` calls
(setting `result = PROGRESS` in the source). -/
def identicalFires (s : List Truth) (a b : Nat) : Prop :=
  (tget s a = Truth.maybe ∧ tget s b ≠ Truth.maybe) ∨
  (tget s b = Truth.maybe ∧ tget s a ≠ Truth.maybe)

instance (s : List Truth) (a b : Nat) : Decidable (identicalFires s a b) := by
  unfold identicalFires; infer_instance

/-- The `Identical::Evaluate` loop over the zipped pair list, threading the
mutated table and the accumulated `Result`. -/
def identicalAux : List (Nat × Nat) → List Truth → Result → Result × List Truth
  | [], s, r => (r, s)
  | (a, b) :: rest, s, r =>
    if identicalConflict s a b then (Result.conflict, s)
    else if identicalFires s a b then identicalAux rest (identicalStep s a b) Result.progress
    else identicalAux rest s r

/-- Set every listed slot that is currently `MAYBE` to `v`, in list order
(the forcing loops of `ExactlyNOf::Evaluate`). -/
def forceMaybes (s : List Truth) (indexes : List Nat) (v : Truth) : List Truth :=
  match indexes with
  | [] => s
  | i :: rest =>
    forceMaybes (if tget s i = Truth.maybe then (Solution.Set s i v).2 else s) rest v

/-- `Evaluate` of each catalog constraint, translated clause by clause from
`constraints.h`. -/
def Constraint.Evaluate : Constraint → List Truth → Result × List Truth
  | Constraint.Fixed index value, s => Solution.Set s index value
  | Constraint.IfPThenQ p q, s =>
    if tget s p = Truth.yes ∧ tget s q = Truth.no then (Result.conflict, s)
    else if tget s p = Truth.yes ∧ tget s q = Truth.maybe then Solution.Set s q Truth.yes
    else if tget s q = Truth.no ∧ tget s p = Truth.maybe then Solution.Set s p Truth.no
    else (Result.noChange, s)
  | Constraint.Identical indexes1 indexes2, s =>
    identicalAux (indexes1.zip indexes2) s Result.noChange
  | Constraint.ExactlyNOf n indexes value, s =>
    let nMatches := Solution.Count s indexes value
    let nMaybes := Solution.Count s indexes Truth.maybe
    if nMaybes < usub n nMatches then (Result.conflict, s)
    else if nMatches > n then (Result.conflict, s)
    else if 0 < nMaybes then
      if nMatches = n then (Result.progress, forceMaybes s indexes (tnot value))
      else if nMaybes = usub n nMatches then (Result.progress, forceMaybes s indexes value)
      else (Result.noChange, s)
    else (Result.noChange, s)
  | Constraint.IfPThenOneOrMoreOfQ p q, s =>
    let yeses := Solution.Count s q Truth.yes
    let maybes := Solution.Count s q Truth.maybe
    if tget s p = Truth.yes ∧ yeses = 0 ∧ maybes = 0 then (Result.conflict, s)
    else if tget s p = Truth.yes ∧ yeses = 0 ∧ maybes = 1 then
      match q.find? (fun i => tget s i = Truth.maybe) with
      | some i => Solution.Set s i Truth.yes
      | none => (Result.noChange, s)
    else if tget s p = Truth.maybe ∧ yeses = 0 ∧ maybes = 0 then
      Solution.Set s p Truth.no
    else (Result.noChange, s)

namespace Puzzle

/-- `Puzzle::ApplyConstraints`: evaluate every constraint in order, short-
circuiting on `CONFLICT`, reporting `PROGRESS` if any evaluation did. -/
def applyAux : List Constraint → List Truth → Result → Result × List Truth
  | [], s, r => (r, s)
  | c :: rest, s, r =>
    match c.Evaluate s with
    | (Result.conflict, s1) => (Result.conflict, s1)
    | (Result.noChange, s1) => applyAux rest s1 r
    | (Result.progress, s1) => applyAux rest s1 Result.progress

/-- One pass of `Puzzle::ApplyConstraints` over the whole collection. -/
def ApplyConstraints (cs : List Constraint) (s : List Truth) : Result × List Truth :=
  applyAux cs s Result.noChange

/-- The `do { ApplyConstraints } while (PROGRESS)` loop of `Puzzle::Solve`,
with a fuel bound on the number of passes; `none` means the fuel ran out. -/
def propagateF : Nat → List Constraint → List Truth → Option (Result × List Truth)
  | 0, _, _ => none
  | fuel + 1, cs, s =>
    match ApplyConstraints cs s with
    | (Result.progress, s1) => propagateF fuel cs s1
    | r => some r

/-- Fuel that always suffices for the propagation loop: one pass per
`MAYBE` slot plus a final quiescent pass. -/
def propFuel (s : List Truth) : Nat := maybeCount s + 1

/-- Weight of one work-list candidate, used to bound the search loop. -/
def candWeight (s : List Truth) : Nat := 2 ^ (maybeCount s + 1) - 1

/-- Total weight of the work-list stack. -/
def stackMeasure (stack : List (List Truth)) : Nat :=
  (stack.map candWeight).sum

/-- The `while (!candidates.empty())` loop body of `Puzzle::Solve`: the
stack is a list with its head as top; solutions accumulate in discovery
order.  Guess pushing order matches the source: the `NO` guess is pushed
first, then the `YES` guess (so the `YES` branch is explored first). -/
def solveF : Nat → List Constraint → List (List Truth) → List (List Truth) →
    Option (List (List Truth))
  | 0, _, _, _ => none
  | _ + 1, _, [], solutions => some solutions
  | fuel + 1, cs, candidate :: rest, solutions =>
    match propagateF (propFuel candidate) cs candidate with
    | none => none
    | some (Result.conflict, _) => solveF fuel cs rest solutions
    | some (_, c) =>
      if Solution.FirstMaybe c = c.length then solveF fuel cs rest (solutions ++ [c])
      else
        solveF fuel cs
          ((Solution.Set c (Solution.FirstMaybe c) Truth.yes).2 ::
           (Solution.Set c (Solution.FirstMaybe c) Truth.no).2 :: rest) solutions

/-- `Puzzle::Solve`: start from the all-`MAYBE` state and run the work-list
loop, with fuel sufficient for the whole search (proved below). -/
def Solve (slots : Nat) (cs : List Constraint) : Option (List (List Truth)) :=
  solveF (stackMeasure [List.replicate slots Truth.maybe] + 1) cs
    [List.replicate slots Truth.maybe] []

end Puzzle

namespace Zebra

/-- `Solution::Set` as duplicated inline in `zebra.cpp` (same text as the
library version). -/
def Set (s : List Truth) (index : Nat) (value : Truth) : Result × List Truth :=
  if tget s index = value then (Result.noChange, s)
  else if tget s index ≠ Truth.maybe then (Result.conflict, s)
  else (Result.progress, s.set index value)

/-- `Solution::Count` as duplicated inline in `zebra.cpp`. -/
def Count (s : List Truth) (indexes : List Nat) (value : Truth) : Nat :=
  match indexes with
  | [] => 0
  | i :: rest => (if tget s i = value then 1 else 0) + Count s rest value

/-- `Solution::FirstMaybe` as duplicated inline in `zebra.cpp`. -/
def FirstMaybe (s : List Truth) : Nat :=
  s.findIdx (fun a => a = Truth.maybe)

/-- `OneIfAny::Evaluate` from `zebra.cpp`: if every member of `any` is
`NO`, `Set(one, NO)`; else if `one` is `YES` and exactly one member of
`any` is `MAYBE` while the rest are `NO`, set that member to `YES`. -/
def OneIfAnyEvaluate (one : Nat) (anyIdx : List Nat) (s : List Truth) :
    Result × List Truth :=
  let noes := Count s anyIdx Truth.no
  if noes = anyIdx.length then Set s one Truth.no
  else if tget s one = Truth.yes then
    let nMaybes := Count s anyIdx Truth.maybe
    if nMaybes = 1 ∧ noes + 1 = anyIdx.length then
      match anyIdx.find? (fun i => tget s i = Truth.maybe) with
      | some i => Set s i Truth.yes
      | none => (Result.noChange, s)
    else (Result.noChange, s)
  else (Result.noChange, s)

end Zebra

/-- The constraint catalog of `zebra.cpp`: `Fixed`, `Identical` and
`ExactlyNOf` are verbatim duplicates of the library classes, plus
`OneIfAny`. -/
inductive ZConstraint where
  | Fixed (index : Nat) (value : Truth)
  | Identical (indexes1 indexes2 : List Nat)
  | ExactlyNOf (n : Nat) (indexes : List Nat) (value : Truth)
  | OneIfAny (one : Nat) (anyIdx : List Nat)
deriving DecidableEq, Repr

/-- `Evaluate` of the `zebra.cpp` constraints.  The `Fixed`, `Identical`
and `ExactlyNOf` bodies are the same source text as `constraints.h`, so the
loop helpers are shared with the library embedding. -/
def ZConstraint.Evaluate : ZConstraint → List Truth → Result × List Truth
  | ZConstraint.Fixed index value, s => Zebra.Set s index value
  | ZConstraint.Identical indexes1 indexes2, s =>
    identicalAux (indexes1.zip indexes2) s Result.noChange
  | ZConstraint.ExactlyNOf n indexes value, s =>
    let nMatches := Zebra.Count s indexes value
    let nMaybes := Zebra.Count s indexes Truth.maybe
    if nMaybes < usub n nMatches then (Result.conflict, s)
    else if nMatches > n then (Result.conflict, s)
    else if 0 < nMaybes then
      if nMatches = n then (Result.progress, forceMaybes s indexes (tnot value))
      else if nMaybes = usub n nMatches then (Result.progress, forceMaybes s indexes value)
      else (Result.noChange, s)
    else (Result.noChange, s)
  | ZConstraint.OneIfAny one anyIdx, s => Zebra.OneIfAnyEvaluate one anyIdx s

/-- The library constraint corresponding to each `zebra.cpp` constraint
(`OneIfAny` corresponds to `IfPThenOneOrMoreOfQ`). -/
def ZConstraint.toLib : ZConstraint → Constraint
  | ZConstraint.Fixed index value => Constraint.Fixed index value
  | ZConstraint.Identical indexes1 indexes2 => Constraint.Identical indexes1 indexes2
  | ZConstraint.ExactlyNOf n indexes value => Constraint.ExactlyNOf n indexes value
  | ZConstraint.OneIfAny one anyIdx => Constraint.IfPThenOneOrMoreOfQ one anyIdx

namespace Zebra

/-- `Puzzle::ApplyConstraints` as duplicated inline in `zebra.cpp`. -/
def applyAux : List ZConstraint → List Truth → Result → Result × List Truth
  | [], s, r => (r, s)
  | c :: rest, s, r =>
    match c.Evaluate s with
    | (Result.conflict, s1) => (Result.conflict, s1)
    | (Result.noChange, s1) => applyAux rest s1 r
    | (Result.progress, s1) => applyAux rest s1 Result.progress

/-- One pass of the `zebra.cpp` `ApplyConstraints` over the collection. -/
def ApplyConstraints (cs : List ZConstraint) (s : List Truth) : Result × List Truth :=
  applyAux cs s Result.noChange

/-- The propagation loop of the `zebra.cpp` `Solve`, with fuel. -/
def propagateF : Nat → List ZConstraint → List Truth → Option (Result × List Truth)
  | 0, _, _ => none
  | fuel + 1, cs, s =>
    match ApplyConstraints cs s with
    | (Result.progress, s1) => propagateF fuel cs s1
    | r => some r

/-- The work-list loop of the `zebra.cpp` `Solve`, with fuel. -/
def solveF : Nat → List ZConstraint → List (List Truth) → List (List Truth) →
    Option (List (List Truth))
  | 0, _, _, _ => none
  | _ + 1, _, [], solutions => some solutions
  | fuel + 1, cs, candidate :: rest, solutions =>
    match propagateF (Puzzle.propFuel candidate) cs candidate with
    | none => none
    | some (Result.conflict, _) => solveF fuel cs rest solutions
    | some (_, c) =>
      if FirstMaybe c = c.length then solveF fuel cs rest (solutions ++ [c])
      else
        solveF fuel cs
          ((Set c (FirstMaybe c) Truth.yes).2 ::
           (Set c (FirstMaybe c) Truth.no).2 :: rest) solutions

/-- `Puzzle::Solve` as duplicated inline in `zebra.cpp`. -/
def Solve (slots : Nat) (cs : List ZConstraint) : Option (List (List Truth)) :=
  solveF (Puzzle.stackMeasure [List.replicate slots Truth.maybe] + 1) cs
    [List.replicate slots Truth.maybe] []

end Zebra

/-! The remaining definitions support the verification itself. -/

/-- Which of the two conflict checks of `ExactlyNOf::Evaluate` fires, in the
source's evaluation order: the wrapped-subtraction check
`maybes < m_number - matches` is the first statement of the body, the
`matches > m_number` comparison the second. -/
def ExactlyN_conflictBranch (n nMatches nMaybes : Nat) : Option Nat :=
  if nMaybes < usub n nMatches then some 1
  else if nMatches > n then some 2
  else none

/-- Apply a sequence of `Set` calls in order, keeping the running state
(the "any sequence of `Set` calls" of the monotonicity property). -/
def applySets (s : List Truth) (ops : List (Nat × Truth)) : List Truth :=
  match ops with
  | [] => s
  | op :: rest => applySets (Solution.Set s op.1 op.2).2 rest

/-! ### The refinement order on states

`tle a b` means slot value `b` refines `a`: either `a` is still `MAYBE` or
`b` equals `a`.  `sle s t` lifts this pointwise over equal-length states.
Every catalog rule only moves states upward in this order. -/

def tle (a b : Truth) : Prop := a = Truth.maybe ∨ b = a

instance (a b : Truth) : Decidable (tle a b) := by
  unfold tle; infer_instance

def sle (s t : List Truth) : Prop :=
  s.length = t.length ∧ ∀ i, tle (tget s i) (tget t i)

/-! ### Well-formed constraints

A constraint is well formed for a given slot count when all of its indices
are in range and (for `Fixed` and `ExactlyNOf`) its target value is
definite — the preconditions §4.1 and §7 of the specification place on the
engine's configuration. -/

def Constraint.WF (slots : Nat) : Constraint → Prop
  | Constraint.Fixed index value => index < slots ∧ value ≠ Truth.maybe
  | Constraint.IfPThenQ p q => p < slots ∧ q < slots
  | Constraint.Identical indexes1 indexes2 =>
      (∀ i ∈ indexes1, i < slots) ∧ (∀ i ∈ indexes2, i < slots)
  | Constraint.ExactlyNOf _ indexes value =>
      (∀ i ∈ indexes, i < slots) ∧ value ≠ Truth.maybe
  | Constraint.IfPThenOneOrMoreOfQ p q => p < slots ∧ ∀ i ∈ q, i < slots

instance (slots : Nat) : (c : Constraint) → Decidable (c.WF slots)
  | Constraint.Fixed _ _ => by unfold Constraint.WF; infer_instance
  | Constraint.IfPThenQ _ _ => by unfold Constraint.WF; infer_instance
  | Constraint.Identical _ _ => by unfold Constraint.WF; infer_instance
  | Constraint.ExactlyNOf _ _ _ => by unfold Constraint.WF; infer_instance
  | Constraint.IfPThenOneOrMoreOfQ _ _ => by unfold Constraint.WF; infer_instance

/-- A state at which every constraint of the collection reports `NO_CHANGE`:
the propagation fixpoints. -/
def IsFix (cs : List Constraint) (z : List Truth) : Prop :=
  ∀ c ∈ cs, c.Evaluate z = (Result.noChange, z)


/-! ### Basic facts about `tget`, `List.set`, `maybeCount` and `Set` -/

theorem tget_cons_zero (a : Truth) (s : List Truth) : tget (a :: s) 0 = a := by
  simp [tget]

theorem tget_cons_succ (a : Truth) (s : List Truth) (i : Nat) :
    tget (a :: s) (i + 1) = tget s i := by
  simp [tget]

theorem tget_eq_maybe_of_le {s : List Truth} {i : Nat} (h : s.length ≤ i) :
    tget s i = Truth.maybe := by
  simp [tget, List.getD_eq_getElem?_getD, List.getElem?_eq_none h]

theorem tget_set_eq {s : List Truth} {i : Nat} (h : i < s.length) (v : Truth) :
    tget (s.set i v) i = v := by
  simp [tget, List.getD_eq_getElem?_getD, List.getElem?_set, h]

theorem tget_set_ne {s : List Truth} {i j : Nat} (h : i ≠ j) (v : Truth) :
    tget (s.set i v) j = tget s j := by
  simp [tget, List.getD_eq_getElem?_getD, List.getElem?_set, h]

theorem maybeCount_cons (a : Truth) (s : List Truth) :
    maybeCount (a :: s) = (if a = Truth.maybe then 1 else 0) + maybeCount s := rfl

theorem maybeCount_pos {s : List Truth} {i : Nat}
    (hi : i < s.length) (hm : tget s i = Truth.maybe) : 0 < maybeCount s := by
  induction s generalizing i with
  | nil => simp at hi
  | cons a rest ih =>
    cases i with
    | zero =>
      rw [tget_cons_zero] at hm
      simp [maybeCount_cons, hm]
    | succ i =>
      rw [tget_cons_succ] at hm
      have := ih (by simpa using hi) hm
      simp [maybeCount_cons]
      omega

theorem maybeCount_set {s : List Truth} {i : Nat} {v : Truth}
    (hi : i < s.length) (hm : tget s i = Truth.maybe) (hv : v ≠ Truth.maybe) :
    maybeCount (s.set i v) + 1 = maybeCount s := by
  induction s generalizing i with
  | nil => simp at hi
  | cons a rest ih =>
    cases i with
    | zero =>
      rw [tget_cons_zero] at hm
      simp [List.set, maybeCount_cons, hm, hv]
      omega
    | succ i =>
      rw [tget_cons_succ] at hm
      have := ih (by simpa using hi) hm
      simp only [List.set, maybeCount_cons]
      omega

theorem Set_eq_val {s : List Truth} {i : Nat} {v : Truth} (h : tget s i = v) :
    Solution.Set s i v = (Result.noChange, s) := by
  simp [Solution.Set, h]

theorem Set_conflict {s : List Truth} {i : Nat} {v : Truth}
    (h1 : tget s i ≠ v) (h2 : tget s i ≠ Truth.maybe) :
    Solution.Set s i v = (Result.conflict, s) := by
  simp [Solution.Set, h1, h2]

theorem Set_progress {s : List Truth} {i : Nat} {v : Truth}
    (h1 : tget s i = Truth.maybe) (h2 : v ≠ Truth.maybe) :
    Solution.Set s i v = (Result.progress, s.set i v) := by
  have hmv : Truth.maybe ≠ v := fun hh => h2 hh.symm
  simp [Solution.Set, h1, hmv]

theorem Set_snd_cases (s : List Truth) (i : Nat) (v : Truth) :
    (Solution.Set s i v).2 = s ∨
      (tget s i = Truth.maybe ∧ (Solution.Set s i v).2 = s.set i v) := by
  by_cases h1 : tget s i = v
  · left; rw [Set_eq_val h1]
  · by_cases h2 : tget s i = Truth.maybe
    · right
      refine ⟨h2, ?_⟩
      have hmv : Truth.maybe ≠ v := fun hh => h1 (h2.trans hh)
      simp [Solution.Set, h1, h2, hmv]
    · left; rw [Set_conflict h1 h2]

theorem length_Set_snd (s : List Truth) (i : Nat) (v : Truth) :
    (Solution.Set s i v).2.length = s.length := by
  rcases Set_snd_cases s i v with h | ⟨_, h⟩ <;> simp [h]

theorem tget_Set_snd_of_ne_maybe {s : List Truth} {j : Nat}
    (hj : tget s j ≠ Truth.maybe) (i : Nat) (v : Truth) :
    tget (Solution.Set s i v).2 j = tget s j := by
  rcases Set_snd_cases s i v with h | ⟨hm, h⟩
  · rw [h]
  · rw [h]
    by_cases hij : i = j
    · subst hij; exact absurd hm hj
    · exact tget_set_ne hij v

/-! ### Facts about `FirstMaybe` -/

theorem FirstMaybe_le_length (s : List Truth) : Solution.FirstMaybe s ≤ s.length :=
  List.findIdx_le_length _

theorem tget_FirstMaybe {s : List Truth} (h : Solution.FirstMaybe s < s.length) :
    tget s (Solution.FirstMaybe s) = Truth.maybe := by
  induction s with
  | nil => simp [Solution.FirstMaybe] at h
  | cons a rest ih =>
    by_cases ha : a = Truth.maybe
    · simp [Solution.FirstMaybe, List.findIdx_cons, ha, tget_cons_zero]
    · have hx : Solution.FirstMaybe (a :: rest) = Solution.FirstMaybe rest + 1 := by
        simp [Solution.FirstMaybe, List.findIdx_cons, ha]
      rw [hx] at h ⊢
      rw [tget_cons_succ]
      exact ih (by simpa using h)

theorem FirstMaybe_eq_length_of_count_zero {s : List Truth}
    (h : maybeCount s = 0) : Solution.FirstMaybe s = s.length := by
  rcases Nat.lt_or_ge (Solution.FirstMaybe s) s.length with hlt | hge
  · have := maybeCount_pos hlt (tget_FirstMaybe hlt)
    omega
  · exact Nat.le_antisymm (FirstMaybe_le_length s) hge

theorem tle_refl (a : Truth) : tle a a := Or.inr rfl

theorem tle_trans {a b c : Truth} (h1 : tle a b) (h2 : tle b c) : tle a c := by
  rcases h1 with h1 | h1
  · exact Or.inl h1
  · subst h1; exact h2

theorem tle_antisymm {a b : Truth} (h1 : tle a b) (h2 : tle b a) : a = b := by
  rcases h1 with h1 | h1
  · rcases h2 with h2 | h2
    · rw [h1, h2]
    · exact h2
  · exact h1.symm

theorem tle_of_eq {a b : Truth} (h : b = a) : tle a b := Or.inr h

theorem tle_definite {a b : Truth} (h : tle a b) (ha : a ≠ Truth.maybe) : b = a := by
  rcases h with h | h
  · exact absurd h ha
  · exact h

theorem sle_refl (s : List Truth) : sle s s := ⟨rfl, fun i => tle_refl _⟩

theorem sle_trans {s t u : List Truth} (h1 : sle s t) (h2 : sle t u) : sle s u :=
  ⟨h1.1.trans h2.1, fun i => tle_trans (h1.2 i) (h2.2 i)⟩

theorem sle_length {s t : List Truth} (h : sle s t) : s.length = t.length := h.1

theorem sle_tget {s t : List Truth} (h : sle s t) {i : Nat}
    (hi : tget s i ≠ Truth.maybe) : tget t i = tget s i :=
  tle_definite (h.2 i) hi

theorem sle_nil {t : List Truth} (h : sle [] t) : t = [] := by
  have := h.1
  simpa using List.eq_nil_of_length_eq_zero this.symm

theorem sle_cons {a b : Truth} {s t : List Truth} :
    sle (a :: s) (b :: t) ↔ tle a b ∧ sle s t := by
  constructor
  · rintro ⟨hl, hp⟩
    refine ⟨by simpa [tget_cons_zero] using hp 0, by simpa using hl, fun i => ?_⟩
    simpa [tget_cons_succ] using hp (i + 1)
  · rintro ⟨hab, hl, hp⟩
    refine ⟨by simpa using hl, fun i => ?_⟩
    cases i with
    | zero => simpa [tget_cons_zero] using hab
    | succ i => simpa [tget_cons_succ] using hp i

theorem sle_antisymm {s t : List Truth} (h1 : sle s t) (h2 : sle t s) : s = t := by
  induction s generalizing t with
  | nil => exact (sle_nil h1).symm
  | cons a s ih =>
    cases t with
    | nil => simpa using h1.1
    | cons b t =>
      rcases sle_cons.1 h1 with ⟨hab, hst⟩
      rcases sle_cons.1 h2 with ⟨hba, hts⟩
      rw [tle_antisymm hab hba, ih hst hts]

theorem maybeCount_le_of_sle {s t : List Truth} (h : sle s t) :
    maybeCount t ≤ maybeCount s := by
  induction s generalizing t with
  | nil => rw [sle_nil h]
  | cons a s ih =>
    cases t with
    | nil => simpa using h.1
    | cons b t =>
      rcases sle_cons.1 h with ⟨hab, hst⟩
      have hrec := ih hst
      have hhead : (if b = Truth.maybe then (1 : Nat) else 0) ≤
          (if a = Truth.maybe then (1 : Nat) else 0) := by
        rcases hab with ha | hb
        · subst ha
          have hb1 : (if b = Truth.maybe then (1 : Nat) else 0) ≤ 1 := by
            split <;> omega
          simpa using hb1
        · subst hb
          exact Nat.le_refl _
      simp only [maybeCount_cons]
      omega

theorem sle_set_self {s : List Truth} {i : Nat} (hm : tget s i = Truth.maybe)
    (v : Truth) : sle s (s.set i v) := by
  refine ⟨by simp, fun j => ?_⟩
  by_cases hij : i = j
  · subst hij; exact Or.inl hm
  · exact tle_of_eq (tget_set_ne hij v)

theorem sle_Set_snd (s : List Truth) (i : Nat) (v : Truth) :
    sle s (Solution.Set s i v).2 := by
  rcases Set_snd_cases s i v with h | ⟨hm, h⟩
  · rw [h]; exact sle_refl s
  · rw [h]; exact sle_set_self hm v

theorem sle_set_congr {s t : List Truth} (h : sle s t) (i : Nat) (v : Truth) :
    sle (s.set i v) (t.set i v) := by
  refine ⟨by simp [h.1], fun j => ?_⟩
  by_cases hij : i = j
  · subst hij
    by_cases hi : i < s.length
    · rw [tget_set_eq hi, tget_set_eq (h.1 ▸ hi)]
      exact tle_refl v
    · rw [List.set_eq_of_length_le (Nat.le_of_not_lt hi),
        List.set_eq_of_length_le (h.1 ▸ Nat.le_of_not_lt hi)]
      exact h.2 i
  · rw [tget_set_ne hij, tget_set_ne hij]
    exact h.2 j

theorem sle_set_of_tget {s t : List Truth} (h : sle s t) {i : Nat} {v : Truth}
    (hv : tget t i = v) : sle (s.set i v) t := by
  refine ⟨by simp [h.1], fun j => ?_⟩
  by_cases hij : i = j
  · subst hij
    by_cases hi : i < s.length
    · rw [tget_set_eq hi]
      exact tle_of_eq hv
    · rw [List.set_eq_of_length_le (Nat.le_of_not_lt hi)]
      exact h.2 i
  · rw [tget_set_ne hij]
    exact h.2 j

/-! ### Facts about `Count` -/

theorem Count_cons (s : List Truth) (i : Nat) (rest : List Nat) (v : Truth) :
    Solution.Count s (i :: rest) v =
      (if tget s i = v then 1 else 0) + Solution.Count s rest v := rfl

theorem Count_tri (s : List Truth) (idx : List Nat) :
    Solution.Count s idx Truth.no + Solution.Count s idx Truth.maybe +
      Solution.Count s idx Truth.yes = idx.length := by
  induction idx with
  | nil => rfl
  | cons i rest ih =>
    simp only [Count_cons, List.length_cons]
    cases h : tget s i <;> simp [h] <;> omega

theorem Count_eq_zero {s : List Truth} {idx : List Nat} {v : Truth} :
    Solution.Count s idx v = 0 ↔ ∀ i ∈ idx, tget s i ≠ v := by
  induction idx with
  | nil => simp [Solution.Count]
  | cons i rest ih =>
    simp only [Count_cons, List.mem_cons]
    constructor
    · intro h
      have h1 : Solution.Count s rest v = 0 := by omega
      have h2 : tget s i ≠ v := by
        intro hv; rw [if_pos hv] at h; omega
      intro j hj
      rcases hj with rfl | hj
      · exact h2
      · exact ih.1 h1 j hj
    · intro h
      rw [if_neg (h i (Or.inl rfl)), ih.2 fun j hj => h j (Or.inr hj)]

theorem Count_pos {s : List Truth} {idx : List Nat} {v : Truth} :
    0 < Solution.Count s idx v ↔ ∃ i ∈ idx, tget s i = v := by
  rcases Nat.eq_zero_or_pos (Solution.Count s idx v) with h | h
  · rw [h]
    simp only [Nat.lt_irrefl, false_iff]
    push_neg
    exact Count_eq_zero.1 h
  · simp only [h, true_iff]
    by_contra hc
    push_neg at hc
    have := Count_eq_zero.2 hc
    omega

theorem Count_eq_length {s : List Truth} {idx : List Nat} {v : Truth} :
    Solution.Count s idx v = idx.length ↔ ∀ i ∈ idx, tget s i = v := by
  induction idx with
  | nil => simp [Solution.Count]
  | cons i rest ih =>
    have hle : Solution.Count s rest v ≤ rest.length := by
      have := Count_tri s rest
      cases v <;> omega
    simp only [Count_cons, List.length_cons, List.mem_cons]
    constructor
    · intro h
      have h2 : tget s i = v := by
        by_contra hv; rw [if_neg hv] at h; omega
      have h1 : Solution.Count s rest v = rest.length := by
        rw [if_pos h2] at h; omega
      intro j hj
      rcases hj with rfl | hj
      · exact h2
      · exact ih.1 h1 j hj
    · intro h
      rw [if_pos (h i (Or.inl rfl)), ih.2 fun j hj => h j (Or.inr hj)]
      omega

theorem Count_le_of_sle {s t : List Truth} (h : sle s t) (idx : List Nat)
    {v : Truth} (hv : v ≠ Truth.maybe) :
    Solution.Count s idx v ≤ Solution.Count t idx v := by
  induction idx with
  | nil => exact Nat.le_refl _
  | cons i rest ih =>
    simp only [Count_cons]
    have : (if tget s i = v then (1 : Nat) else 0) ≤
        (if tget t i = v then (1 : Nat) else 0) := by
      by_cases hs : tget s i = v
      · have ht : tget t i = v := by
          rw [sle_tget h (hs ▸ hv), hs]
        simp [hs, ht]
      · simp [hs]
    omega

theorem Count_add_maybe_le_of_sle {s t : List Truth} (h : sle s t)
    (idx : List Nat) {v : Truth} (hv : v ≠ Truth.maybe) :
    Solution.Count t idx v + Solution.Count t idx Truth.maybe ≤
      Solution.Count s idx v + Solution.Count s idx Truth.maybe := by
  induction idx with
  | nil => exact Nat.le_refl _
  | cons i rest ih =>
    simp only [Count_cons]
    have hhead : (if tget t i = v then (1 : Nat) else 0) +
        (if tget t i = Truth.maybe then (1 : Nat) else 0) ≤
        (if tget s i = v then (1 : Nat) else 0) +
        (if tget s i = Truth.maybe then (1 : Nat) else 0) := by
      by_cases hs : tget s i = Truth.maybe
      · have hsv : tget s i ≠ v := fun hh => hv (hh.symm.trans hs)
        rw [if_neg hsv, if_pos hs]
        have hnot : ¬(tget t i = v ∧ tget t i = Truth.maybe) := by
          rintro ⟨h1, h2⟩; exact hv (h1.symm.trans h2)
        by_cases h1 : tget t i = v
        · rw [if_pos h1, if_neg fun h2 => hnot ⟨h1, h2⟩]
        · rw [if_neg h1]
          by_cases h2 : tget t i = Truth.maybe
          · rw [if_pos h2]
          · rw [if_neg h2]; omega
      · rw [sle_tget h hs]
    omega

/-- If exactly one listed slot satisfies a condition, it bounds membership:
used for the unique-`MAYBE` forcing in `IfPThenOneOrMoreOfQ`. -/
theorem Count_one_unique {s : List Truth} {idx : List Nat} {v : Truth}
    (h : Solution.Count s idx v = 1) :
    ∀ j ∈ idx, tget s j = v → ∀ k ∈ idx, tget s k = v → j = k := by
  induction idx with
  | nil => intro j hj; simp at hj
  | cons i rest ih =>
    intro j hj hjv k hk hkv
    rw [Count_cons] at h
    by_cases hi : tget s i = v
    · rw [if_pos hi] at h
      have hrest : Solution.Count s rest v = 0 := by omega
      have hnone := Count_eq_zero.1 hrest
      rcases List.mem_cons.1 hj with rfl | hj2
      · rcases List.mem_cons.1 hk with rfl | hk2
        · rfl
        · exact absurd hkv (hnone k hk2)
      · exact absurd hjv (hnone j hj2)
    · rw [if_neg hi] at h
      rcases List.mem_cons.1 hj with rfl | hj2
      · exact absurd hjv hi
      · rcases List.mem_cons.1 hk with rfl | hk2
        · exact absurd hkv hi
        · exact ih (by omega) j hj2 hjv k hk2 hkv

theorem find?_eq_some_of_unique {q : List Nat} {p : Nat → Bool} {j : Nat}
    (hj : j ∈ q) (hpj : p j = true) (huniq : ∀ k ∈ q, p k = true → k = j) :
    q.find? p = some j := by
  induction q with
  | nil => simp at hj
  | cons i rest ih =>
    by_cases hpi : p i = true
    · have : i = j := huniq i (List.mem_cons_self i rest) hpi
      subst this
      rw [List.find?_cons_of_pos _ hpi]
    · have hij : j ≠ i := fun hh => hpi (hh ▸ hpj)
      have hjr : j ∈ rest := by
        rcases List.mem_cons.1 hj with rfl | hh
        · exact absurd rfl hij
        · exact hh
      rw [List.find?_cons_of_neg _ hpi]
      exact ih hjr fun k hk hpk => huniq k (List.mem_cons_of_mem i hk) hpk

/-! ### Facts about `forceMaybes` -/

theorem length_forceMaybes (s : List Truth) (idx : List Nat) (v : Truth) :
    (forceMaybes s idx v).length = s.length := by
  induction idx generalizing s with
  | nil => rfl
  | cons i rest ih =>
    simp only [forceMaybes]
    rw [ih]
    split
    · exact length_Set_snd s i v
    · rfl

theorem sle_forceMaybes (s : List Truth) (idx : List Nat) (v : Truth) :
    sle s (forceMaybes s idx v) := by
  induction idx generalizing s with
  | nil => exact sle_refl s
  | cons i rest ih =>
    simp only [forceMaybes]
    refine sle_trans ?_ (ih _)
    split
    · exact sle_Set_snd s i v
    · exact sle_refl s

theorem tget_forceMaybes {s : List Truth} {idx : List Nat} {v : Truth}
    (hv : v ≠ Truth.maybe) (hin : ∀ i ∈ idx, i < s.length) (j : Nat) :
    tget (forceMaybes s idx v) j =
      if j ∈ idx ∧ tget s j = Truth.maybe then v else tget s j := by
  induction idx generalizing s with
  | nil => simp [forceMaybes]
  | cons i rest ih =>
    simp only [forceMaybes]
    have hii : i < s.length := hin i (List.mem_cons_self i rest)
    by_cases hi : tget s i = Truth.maybe
    · rw [if_pos hi]
      have hset : (Solution.Set s i v).2 = s.set i v := by rw [Set_progress hi hv]
      rw [hset]
      have hin' : ∀ k ∈ rest, k < (s.set i v).length := by
        intro k hk
        simpa using hin k (List.mem_cons_of_mem i hk)
      rw [ih hin']
      by_cases hji : j = i
      · subst hji
        have h1 : tget (s.set j v) j = v := tget_set_eq hii v
        simp [h1, hv, hi]
      · have h2 : tget (s.set i v) j = tget s j :=
          tget_set_ne (fun hh => hji hh.symm) v
        rw [h2]
        simp [List.mem_cons, hji]
    · rw [if_neg hi]
      rw [ih fun k hk => hin k (List.mem_cons_of_mem i hk)]
      by_cases hji : j = i
      · subst hji
        simp [hi]
      · simp [List.mem_cons, hji]

theorem maybeCount_forceMaybes_lt {s : List Truth} {idx : List Nat} {v : Truth}
    (hv : v ≠ Truth.maybe) (hin : ∀ i ∈ idx, i < s.length)
    (hex : 0 < Solution.Count s idx Truth.maybe) :
    maybeCount (forceMaybes s idx v) < maybeCount s := by
  induction idx generalizing s with
  | nil => simp [Solution.Count] at hex
  | cons i rest ih =>
    simp only [forceMaybes]
    by_cases hi : tget s i = Truth.maybe
    · rw [if_pos hi]
      have hset : (Solution.Set s i v).2 = s.set i v := by rw [Set_progress hi hv]
      rw [hset]
      have hii : i < s.length := hin i (List.mem_cons_self i rest)
      have hdec := maybeCount_set hii hi hv
      have hle : maybeCount (forceMaybes (s.set i v) rest v) ≤ maybeCount (s.set i v) :=
        maybeCount_le_of_sle (sle_forceMaybes _ rest v)
      omega
    · rw [if_neg hi]
      have hex' : 0 < Solution.Count s rest Truth.maybe := by
        rw [Count_cons, if_neg hi] at hex
        omega
      exact ih (fun k hk => hin k (List.mem_cons_of_mem i hk)) hex'

theorem find?_congr_pred {q : List Nat} {p1 p2 : Nat → Bool}
    (h : ∀ i ∈ q, p1 i = p2 i) : q.find? p1 = q.find? p2 := by
  induction q with
  | nil => rfl
  | cons i rest ih =>
    have hi := h i (List.mem_cons_self i rest)
    by_cases hp : p1 i = true
    · rw [List.find?_cons_of_pos _ hp, List.find?_cons_of_pos _ (hi ▸ hp)]
    · rw [List.find?_cons_of_neg _ hp, List.find?_cons_of_neg _ (hi ▸ hp)]
      exact ih fun k hk => h k (List.mem_cons_of_mem i hk)

theorem tnot_ne_maybe {v : Truth} (hv : v ≠ Truth.maybe) : tnot v ≠ Truth.maybe := by
  cases v <;> simp [tnot] at hv ⊢

/-! ### Per-rule structural lemmas: length preservation, inflationarity,
`NO_CHANGE` inversion -/

theorem Set_cases (s : List Truth) (i : Nat) (v : Truth) :
    (tget s i = v ∧ Solution.Set s i v = (Result.noChange, s)) ∨
    (tget s i ≠ v ∧ tget s i ≠ Truth.maybe ∧
      Solution.Set s i v = (Result.conflict, s)) ∨
    (tget s i = Truth.maybe ∧ v ≠ Truth.maybe ∧
      Solution.Set s i v = (Result.progress, s.set i v)) := by
  by_cases h1 : tget s i = v
  · exact Or.inl ⟨h1, Set_eq_val h1⟩
  · by_cases h2 : tget s i = Truth.maybe
    · refine Or.inr (Or.inr ⟨h2, fun hv => h1 (hv ▸ h2), Set_progress h2 ?_⟩)
      exact fun hv => h1 (hv ▸ h2)
    · exact Or.inr (Or.inl ⟨h1, h2, Set_conflict h1 h2⟩)

theorem length_identicalStep2 (s : List Truth) (a b : Nat) :
    (identicalStep2 s a b).length = s.length := by
  unfold identicalStep2
  split
  · exact length_Set_snd _ _ _
  · rfl

theorem sle_identicalStep2 (s : List Truth) (a b : Nat) :
    sle s (identicalStep2 s a b) := by
  unfold identicalStep2
  split
  · exact sle_Set_snd _ _ _
  · exact sle_refl s

theorem length_identicalStep (s : List Truth) (a b : Nat) :
    (identicalStep s a b).length = s.length := by
  unfold identicalStep
  rw [length_identicalStep2]
  split
  · exact length_Set_snd _ _ _
  · rfl

theorem sle_identicalStep (s : List Truth) (a b : Nat) :
    sle s (identicalStep s a b) := by
  unfold identicalStep
  refine sle_trans ?_ (sle_identicalStep2 _ a b)
  split
  · exact sle_Set_snd _ _ _
  · exact sle_refl s

theorem length_identicalAux (ps : List (Nat × Nat)) (s : List Truth) (r : Result) :
    (identicalAux ps s r).2.length = s.length := by
  induction ps generalizing s r with
  | nil => rfl
  | cons ab rest ih =>
    rcases ab with ⟨a, b⟩
    unfold identicalAux
    split
    · rfl
    · split
      · rw [ih, length_identicalStep]
      · rw [ih]

theorem sle_identicalAux (ps : List (Nat × Nat)) (s : List Truth) (r : Result) :
    sle s (identicalAux ps s r).2 := by
  induction ps generalizing s r with
  | nil => exact sle_refl s
  | cons ab rest ih =>
    rcases ab with ⟨a, b⟩
    unfold identicalAux
    split
    · exact sle_refl s
    · split
      · exact sle_trans (sle_identicalStep s a b) (ih _ _)
      · exact ih _ _

theorem identicalAux_noChange {ps : List (Nat × Nat)} {s s1 : List Truth} {r : Result}
    (h : identicalAux ps s r = (Result.noChange, s1)) :
    s1 = s ∧ r = Result.noChange := by
  induction ps generalizing s r with
  | nil =>
    unfold identicalAux at h
    injection h with h1 h2
    exact ⟨h2.symm, h1⟩
  | cons ab rest ih =>
    rcases ab with ⟨a, b⟩
    unfold identicalAux at h
    split at h
    · simp at h
    · split at h
      · rcases ih h with ⟨_, hpr⟩
        cases hpr
      · exact ih h

theorem Set_noChange_inv {s : List Truth} {i : Nat} {v : Truth} {s1 : List Truth}
    (h : Solution.Set s i v = (Result.noChange, s1)) : s1 = s := by
  rcases Set_cases s i v with ⟨_, he⟩ | ⟨_, _, he⟩ | ⟨_, _, he⟩ <;> rw [he] at h
  · injection h with h1 h2; exact h2.symm
  · injection h with h1 h2; cases h1
  · injection h with h1 h2; cases h1

theorem Set_progress_inv {s : List Truth} {i : Nat} {v : Truth} {s1 : List Truth}
    (h : Solution.Set s i v = (Result.progress, s1)) :
    tget s i = Truth.maybe ∧ v ≠ Truth.maybe ∧ s1 = s.set i v := by
  rcases Set_cases s i v with ⟨_, he⟩ | ⟨_, _, he⟩ | ⟨hm, hv, he⟩ <;> rw [he] at h
  · injection h with h1 h2; cases h1
  · injection h with h1 h2; cases h1
  · injection h with h1 h2; exact ⟨hm, hv, h2.symm⟩

theorem Set_conflict_inv {s : List Truth} {i : Nat} {v : Truth} {s1 : List Truth}
    (h : Solution.Set s i v = (Result.conflict, s1)) :
    s1 = s ∧ tget s i ≠ v ∧ tget s i ≠ Truth.maybe := by
  rcases Set_cases s i v with ⟨_, he⟩ | ⟨hne, hnm, he⟩ | ⟨_, _, he⟩ <;> rw [he] at h
  · injection h with h1 h2; cases h1
  · injection h with h1 h2; exact ⟨h2.symm, hne, hnm⟩
  · injection h with h1 h2; cases h1

theorem maybeCount_identicalStep2_lt {s : List Truth} {a b : Nat}
    (hc : tget s b = Truth.maybe ∧ tget s a ≠ Truth.maybe) (hb : b < s.length) :
    maybeCount (identicalStep2 s a b) < maybeCount s := by
  unfold identicalStep2
  rw [if_pos hc]
  rcases Set_cases s b (tget s a) with ⟨h1, he⟩ | ⟨_, h2, he⟩ | ⟨_, _, he⟩
  · exact absurd (h1.symm.trans hc.1) hc.2
  · exact absurd hc.1 h2
  · rw [he]
    show maybeCount (s.set b (tget s a)) < maybeCount s
    have hvm : tget s a ≠ Truth.maybe := hc.2
    have := maybeCount_set hb hc.1 hvm
    omega

theorem maybeCount_identicalStep_lt {s : List Truth} {a b : Nat}
    (hf : identicalFires s a b) (ha : a < s.length) (hb : b < s.length) :
    maybeCount (identicalStep s a b) < maybeCount s := by
  unfold identicalStep
  by_cases h1 : tget s a = Truth.maybe ∧ tget s b ≠ Truth.maybe
  · rw [if_pos h1]
    rcases Set_cases s a (tget s b) with ⟨he, _⟩ | ⟨_, h2, _⟩ | ⟨_, _, he⟩
    · exact absurd (he.symm.trans h1.1) h1.2
    · exact absurd h1.1 h2
    · rw [he]
      show maybeCount (identicalStep2 (s.set a (tget s b)) a b) < maybeCount s
      have hd := maybeCount_set ha h1.1 h1.2
      have hle : maybeCount (identicalStep2 (s.set a (tget s b)) a b) ≤
          maybeCount (s.set a (tget s b)) :=
        maybeCount_le_of_sle (sle_identicalStep2 _ a b)
      omega
  · rw [if_neg h1]
    have h2 : tget s b = Truth.maybe ∧ tget s a ≠ Truth.maybe := by
      rcases hf with hf | hf
      · exact absurd hf h1
      · exact hf
    exact maybeCount_identicalStep2_lt h2 hb

theorem identicalAux_progress {slots : Nat} {ps : List (Nat × Nat)}
    {s s1 : List Truth} {r : Result}
    (hin : ∀ ab ∈ ps, ab.1 < slots ∧ ab.2 < slots) (hs : s.length = slots)
    (h : identicalAux ps s r = (Result.progress, s1)) :
    (r = Result.progress ∧ maybeCount s1 ≤ maybeCount s) ∨
      maybeCount s1 < maybeCount s := by
  induction ps generalizing s r with
  | nil =>
    unfold identicalAux at h
    injection h with h1 h2
    exact Or.inl ⟨h1, Nat.le_of_eq (congrArg maybeCount h2.symm)⟩
  | cons ab rest ih =>
    rcases ab with ⟨a, b⟩
    have hab := hin (a, b) (List.mem_cons_self _ _)
    have hin' : ∀ cd ∈ rest, cd.1 < slots ∧ cd.2 < slots :=
      fun cd hcd => hin cd (List.mem_cons_of_mem _ hcd)
    unfold identicalAux at h
    split at h
    · injection h with h1; cases h1
    · split at h
      · rename_i hnc hf
        have hlen : (identicalStep s a b).length = slots := by
          rw [length_identicalStep, hs]
        have hlt := maybeCount_identicalStep_lt hf (hs ▸ hab.1) (hs ▸ hab.2)
        rcases ih hin' hlen h with ⟨_, hle⟩ | hlt2 <;> [right; right] <;> omega
      · exact ih hin' hs h

/-! ### Constraint-level structural lemmas -/

theorem evaluate_length (c : Constraint) (s : List Truth) :
    (c.Evaluate s).2.length = s.length := by
  cases c with
  | Fixed index value => exact length_Set_snd s index value
  | IfPThenQ p q =>
    simp only [Constraint.Evaluate]
    repeat' split
    all_goals first
      | rfl
      | exact length_Set_snd _ _ _
  | Identical i1 i2 => exact length_identicalAux _ s _
  | ExactlyNOf n idx v =>
    simp only [Constraint.Evaluate]
    repeat' split
    all_goals first
      | rfl
      | exact length_forceMaybes _ _ _
  | IfPThenOneOrMoreOfQ p q =>
    simp only [Constraint.Evaluate]
    repeat' split
    all_goals first
      | rfl
      | exact length_Set_snd _ _ _

theorem evaluate_sle (c : Constraint) (s : List Truth) :
    sle s (c.Evaluate s).2 := by
  cases c with
  | Fixed index value => exact sle_Set_snd s index value
  | IfPThenQ p q =>
    simp only [Constraint.Evaluate]
    repeat' split
    all_goals first
      | exact sle_refl s
      | exact sle_Set_snd _ _ _
  | Identical i1 i2 => exact sle_identicalAux _ s _
  | ExactlyNOf n idx v =>
    simp only [Constraint.Evaluate]
    repeat' split
    all_goals first
      | exact sle_refl s
      | exact sle_forceMaybes _ _ _
  | IfPThenOneOrMoreOfQ p q =>
    simp only [Constraint.Evaluate]
    repeat' split
    all_goals first
      | exact sle_refl s
      | exact sle_Set_snd _ _ _

theorem evaluate_noChange {c : Constraint} {s s1 : List Truth}
    (h : c.Evaluate s = (Result.noChange, s1)) : s1 = s := by
  cases c with
  | Fixed index value => exact Set_noChange_inv h
  | IfPThenQ p q =>
    simp only [Constraint.Evaluate] at h
    split at h
    · injection h with h1; cases h1
    · split at h
      · exact Set_noChange_inv h
      · split at h
        · exact Set_noChange_inv h
        · injection h with h1 h2; exact h2.symm
  | Identical i1 i2 => exact (identicalAux_noChange h).1
  | ExactlyNOf n idx v =>
    simp only [Constraint.Evaluate] at h
    split at h
    · injection h with h1; cases h1
    · split at h
      · injection h with h1; cases h1
      · split at h
        · split at h
          · injection h with h1; cases h1
          · split at h
            · injection h with h1; cases h1
            · injection h with h1 h2; exact h2.symm
        · injection h with h1 h2; exact h2.symm
  | IfPThenOneOrMoreOfQ p q =>
    simp only [Constraint.Evaluate] at h
    split at h
    · injection h with h1; cases h1
    · split at h
      · split at h
        · exact Set_noChange_inv h
        · injection h with h1 h2; exact h2.symm
      · split at h
        · exact Set_noChange_inv h
        · injection h with h1 h2; exact h2.symm

theorem evaluate_progress_dec {slots : Nat} {c : Constraint} (hwf : c.WF slots)
    {s s1 : List Truth} (hs : s.length = slots)
    (h : c.Evaluate s = (Result.progress, s1)) : maybeCount s1 < maybeCount s := by
  cases c with
  | Fixed index value =>
    unfold Constraint.Evaluate at h
    rcases Set_progress_inv h with ⟨hm, hv, hset⟩
    subst hset
    have := maybeCount_set (show index < s.length by rw [hs]; exact hwf.1) hm hv
    omega
  | IfPThenQ p q =>
    simp only [Constraint.Evaluate] at h
    split at h
    · injection h with h1; cases h1
    · split at h
      · rcases Set_progress_inv h with ⟨hm, hv, hset⟩
        subst hset
        have := maybeCount_set (show q < s.length by rw [hs]; exact hwf.2) hm hv
        omega
      · split at h
        · rcases Set_progress_inv h with ⟨hm, hv, hset⟩
          subst hset
          have := maybeCount_set (show p < s.length by rw [hs]; exact hwf.1) hm hv
          omega
        · injection h with h1; cases h1
  | Identical i1 i2 =>
    unfold Constraint.Evaluate at h
    have hin : ∀ ab ∈ i1.zip i2, ab.1 < slots ∧ ab.2 < slots := by
      intro ab hab
      rcases ab with ⟨a, b⟩
      have hmem := List.of_mem_zip hab
      exact ⟨hwf.1 a hmem.1, hwf.2 b hmem.2⟩
    rcases identicalAux_progress hin hs h with ⟨hr, _⟩ | hlt
    · cases hr
    · exact hlt
  | ExactlyNOf n idx v =>
    have hin : ∀ i ∈ idx, i < s.length := by
      intro i hi; rw [hs]; exact hwf.1 i hi
    simp only [Constraint.Evaluate] at h
    split at h
    · injection h with h1; cases h1
    · split at h
      · injection h with h1; cases h1
      · split at h
        · rename_i hmay
          split at h
          · injection h with h1 h2
            subst h2
            exact maybeCount_forceMaybes_lt (tnot_ne_maybe hwf.2) hin hmay
          · split at h
            · injection h with h1 h2
              subst h2
              exact maybeCount_forceMaybes_lt hwf.2 hin hmay
            · injection h with h1; cases h1
        · injection h with h1; cases h1
  | IfPThenOneOrMoreOfQ p q =>
    simp only [Constraint.Evaluate] at h
    split at h
    · injection h with h1; cases h1
    · split at h
      · split at h
        · rename_i hfind
          rcases Set_progress_inv h with ⟨hm, hv, hset⟩
          subst hset
          have hiq := List.mem_of_find?_eq_some hfind
          have := maybeCount_set (show _ < s.length by rw [hs]; exact hwf.2 _ hiq) hm hv
          omega
        · injection h with h1; cases h1
      · split at h
        · rcases Set_progress_inv h with ⟨hm, hv, hset⟩
          subst hset
          have := maybeCount_set (show p < s.length by rw [hs]; exact hwf.1) hm hv
          omega
        · injection h with h1; cases h1

/-! ### Composite lemmas for `ApplyConstraints` and the propagation loop -/

namespace Puzzle

theorem applyAux_length (cs : List Constraint) (s : List Truth) (r : Result) :
    (applyAux cs s r).2.length = s.length := by
  induction cs generalizing s r with
  | nil => rfl
  | cons c rest ih =>
    rcases hc : c.Evaluate s with ⟨rc, sc⟩
    have hl : sc.length = s.length := by
      have := evaluate_length c s
      rw [hc] at this
      exact this
    unfold applyAux
    rw [hc]
    cases rc
    · exact hl
    · rw [ih]; exact hl
    · rw [ih]; exact hl

theorem applyAux_sle (cs : List Constraint) (s : List Truth) (r : Result) :
    sle s (applyAux cs s r).2 := by
  induction cs generalizing s r with
  | nil => exact sle_refl s
  | cons c rest ih =>
    rcases hc : c.Evaluate s with ⟨rc, sc⟩
    have hsle : sle s sc := by
      have := evaluate_sle c s
      rw [hc] at this
      exact this
    unfold applyAux
    rw [hc]
    cases rc
    · exact hsle
    · exact sle_trans hsle (ih sc _)
    · exact sle_trans hsle (ih sc _)

theorem applyAux_noChange {cs : List Constraint} {s s1 : List Truth} {r : Result}
    (h : applyAux cs s r = (Result.noChange, s1)) :
    s1 = s ∧ r = Result.noChange ∧ ∀ c ∈ cs, c.Evaluate s = (Result.noChange, s) := by
  induction cs generalizing s r with
  | nil =>
    unfold applyAux at h
    injection h with h1 h2
    exact ⟨h2.symm, h1, by simp⟩
  | cons c rest ih =>
    rcases hc : c.Evaluate s with ⟨rc, sc⟩
    unfold applyAux at h
    rw [hc] at h
    cases rc
    · injection h with h1; cases h1
    · have hsc : sc = s := evaluate_noChange hc
      subst hsc
      rcases ih h with ⟨h1, h2, h3⟩
      refine ⟨h1, h2, ?_⟩
      intro d hd
      rcases List.mem_cons.1 hd with rfl | hd2
      · exact hc
      · exact h3 d hd2
    · rcases ih h with ⟨_, h2, _⟩
      cases h2

theorem applyAux_progress {slots : Nat} {cs : List Constraint}
    (hwf : ∀ c ∈ cs, c.WF slots) {s s1 : List Truth} {r : Result}
    (hs : s.length = slots) (h : applyAux cs s r = (Result.progress, s1)) :
    (r = Result.progress ∧ maybeCount s1 ≤ maybeCount s) ∨
      maybeCount s1 < maybeCount s := by
  induction cs generalizing s r with
  | nil =>
    unfold applyAux at h
    injection h with h1 h2
    exact Or.inl ⟨h1, Nat.le_of_eq (congrArg maybeCount h2.symm)⟩
  | cons c rest ih =>
    rcases hc : c.Evaluate s with ⟨rc, sc⟩
    have hwfc := hwf c (List.mem_cons_self _ _)
    have hwf' : ∀ d ∈ rest, d.WF slots :=
      fun d hd => hwf d (List.mem_cons_of_mem _ hd)
    have hlen : sc.length = slots := by
      have := evaluate_length c s
      rw [hc] at this
      rw [this, hs]
    unfold applyAux at h
    rw [hc] at h
    cases rc
    · injection h with h1; cases h1
    · have hsc : sc = s := evaluate_noChange hc
      subst hsc
      exact ih hwf' hs h
    · have hdec := evaluate_progress_dec hwfc hs hc
      rcases ih hwf' hlen h with ⟨_, hle⟩ | hlt <;> right <;> omega

theorem ApplyConstraints_length (cs : List Constraint) (s : List Truth) :
    (ApplyConstraints cs s).2.length = s.length :=
  applyAux_length cs s Result.noChange

theorem ApplyConstraints_sle (cs : List Constraint) (s : List Truth) :
    sle s (ApplyConstraints cs s).2 :=
  applyAux_sle cs s Result.noChange

theorem ApplyConstraints_noChange {cs : List Constraint} {s s1 : List Truth}
    (h : ApplyConstraints cs s = (Result.noChange, s1)) :
    s1 = s ∧ ∀ c ∈ cs, c.Evaluate s = (Result.noChange, s) := by
  rcases applyAux_noChange h with ⟨h1, _, h3⟩
  exact ⟨h1, h3⟩

theorem ApplyConstraints_progress_dec {slots : Nat} {cs : List Constraint}
    (hwf : ∀ c ∈ cs, c.WF slots) {s s1 : List Truth}
    (hs : s.length = slots) (h : ApplyConstraints cs s = (Result.progress, s1)) :
    maybeCount s1 < maybeCount s := by
  rcases applyAux_progress hwf hs h with ⟨hr, _⟩ | hlt
  · cases hr
  · exact hlt

theorem propagateF_sle {fuel : Nat} {cs : List Constraint} {s u : List Truth}
    {r : Result} (h : propagateF fuel cs s = some (r, u)) :
    sle s u ∧ u.length = s.length := by
  induction fuel generalizing s with
  | zero => cases h
  | succ f ih =>
    rcases hap : ApplyConstraints cs s with ⟨ra, sa⟩
    have hsle : sle s sa := by
      have := ApplyConstraints_sle cs s
      rw [hap] at this
      exact this
    have hlen : sa.length = s.length := by
      have := ApplyConstraints_length cs s
      rw [hap] at this
      exact this
    unfold propagateF at h
    rw [hap] at h
    cases ra
    · injection h with h1
      injection h1 with h2 h3
      subst h3
      exact ⟨hsle, hlen⟩
    · injection h with h1
      injection h1 with h2 h3
      subst h3
      exact ⟨hsle, hlen⟩
    · rcases ih h with ⟨h1, h2⟩
      exact ⟨sle_trans hsle h1, h2.trans hlen⟩

theorem propagateF_noChange_fix {fuel : Nat} {cs : List Constraint}
    {s u : List Truth} (h : propagateF fuel cs s = some (Result.noChange, u)) :
    ApplyConstraints cs u = (Result.noChange, u) ∧
      ∀ c ∈ cs, c.Evaluate u = (Result.noChange, u) := by
  induction fuel generalizing s with
  | zero => cases h
  | succ f ih =>
    rcases hap : ApplyConstraints cs s with ⟨ra, sa⟩
    unfold propagateF at h
    rw [hap] at h
    cases ra
    · injection h with h1; injection h1 with h2 h3; cases h2
    · injection h with h1
      injection h1 with h2 h3
      subst h3
      rcases ApplyConstraints_noChange hap with ⟨hss, hall⟩
      subst hss
      exact ⟨hap, hall⟩
    · exact ih h

theorem propagateF_isSome {slots : Nat} {cs : List Constraint}
    (hwf : ∀ c ∈ cs, c.WF slots) {s : List Truth} (hs : s.length = slots)
    {fuel : Nat} (hfuel : maybeCount s < fuel) :
    ∃ r u, propagateF fuel cs s = some (r, u) := by
  induction fuel generalizing s with
  | zero => omega
  | succ f ih =>
    rcases hap : ApplyConstraints cs s with ⟨ra, sa⟩
    unfold propagateF
    rw [hap]
    cases ra
    · exact ⟨_, _, rfl⟩
    · exact ⟨_, _, rfl⟩
    · have hdec := ApplyConstraints_progress_dec hwf hs hap
      have hlen : sa.length = slots := by
        have := ApplyConstraints_length cs s
        rw [hap] at this
        rw [this, hs]
      exact ih hlen (by omega)

theorem propagateF_not_progress {fuel : Nat} {cs : List Constraint}
    {s u : List Truth} {r : Result} (h : propagateF fuel cs s = some (r, u)) :
    r ≠ Result.progress := by
  induction fuel generalizing s with
  | zero => cases h
  | succ f ih =>
    rcases hap : ApplyConstraints cs s with ⟨ra, sa⟩
    unfold propagateF at h
    rw [hap] at h
    cases ra
    · injection h with h1; injection h1 with h2 h3; subst h2; simp
    · injection h with h1; injection h1 with h2 h3; subst h2; simp
    · exact ih h

end Puzzle

namespace Puzzle

theorem candWeight_pos (s : List Truth) : 0 < candWeight s := by
  unfold candWeight
  have h1 : 1 ≤ 2 ^ (maybeCount s + 1) := Nat.one_le_two_pow
  have h2 : (2 : Nat) ≤ 2 ^ (maybeCount s + 1) := by
    calc (2 : Nat) = 2 ^ 1 := rfl
    _ ≤ 2 ^ (maybeCount s + 1) := Nat.pow_le_pow_right (by omega) (by omega)
  omega

theorem stackMeasure_cons (c : List Truth) (stack : List (List Truth)) :
    stackMeasure (c :: stack) = candWeight c + stackMeasure stack := by
  simp [stackMeasure]

theorem solveF_isSome {slots : Nat} {cs : List Constraint}
    (hwf : ∀ c ∈ cs, c.WF slots) :
    ∀ fuel (stack : List (List Truth)) (sols : List (List Truth)),
      (∀ c ∈ stack, c.length = slots) → stackMeasure stack < fuel →
      ∃ out, solveF fuel cs stack sols = some out := by
  intro fuel
  induction fuel with
  | zero =>
    intro stack sols _ hm
    omega
  | succ f ih =>
    intro stack sols hlen hm
    cases stack with
    | nil => exact ⟨sols, rfl⟩
    | cons cand rest =>
      have hcl : cand.length = slots := hlen cand (List.mem_cons_self _ _)
      obtain ⟨r, u, hp⟩ := propagateF_isSome hwf hcl
        (show maybeCount cand < propFuel cand by unfold propFuel; omega)
      obtain ⟨hsle, hul⟩ := propagateF_sle hp
      have hmu : maybeCount u ≤ maybeCount cand := maybeCount_le_of_sle hsle
      have hrl : ∀ c ∈ rest, c.length = slots :=
        fun c hc => hlen c (List.mem_cons_of_mem _ hc)
      have hwc := candWeight_pos cand
      have hmr : stackMeasure rest < f := by
        rw [stackMeasure_cons] at hm
        omega
      unfold solveF
      rw [hp]
      cases r
      · exact ih rest sols hrl hmr
      · show ∃ out,
          (if Solution.FirstMaybe u = u.length then solveF f cs rest (sols ++ [u])
           else solveF f cs
             ((Solution.Set u (Solution.FirstMaybe u) Truth.yes).2 ::
              (Solution.Set u (Solution.FirstMaybe u) Truth.no).2 :: rest) sols) =
          some out
        by_cases hfm : Solution.FirstMaybe u = u.length
        · rw [if_pos hfm]
          exact ih rest (sols ++ [u]) hrl hmr
        · rw [if_neg hfm]
          have hfml : Solution.FirstMaybe u < u.length :=
            Nat.lt_of_le_of_ne (FirstMaybe_le_length u) hfm
          have hmay : tget u (Solution.FirstMaybe u) = Truth.maybe :=
            tget_FirstMaybe hfml
          have hyes : (Solution.Set u (Solution.FirstMaybe u) Truth.yes).2 =
              u.set (Solution.FirstMaybe u) Truth.yes := by
            rw [Set_progress hmay (by decide)]
          have hno : (Solution.Set u (Solution.FirstMaybe u) Truth.no).2 =
              u.set (Solution.FirstMaybe u) Truth.no := by
            rw [Set_progress hmay (by decide)]
          have hsy := maybeCount_set hfml hmay
            (show Truth.yes ≠ Truth.maybe by decide)
          have hsn := maybeCount_set hfml hmay
            (show Truth.no ≠ Truth.maybe by decide)
          have hly : (u.set (Solution.FirstMaybe u) Truth.yes).length = slots := by
            rw [List.length_set, hul, hcl]
          have hln : (u.set (Solution.FirstMaybe u) Truth.no).length = slots := by
            rw [List.length_set, hul, hcl]
          refine ih _ sols ?_ ?_
          · intro c hc
            rcases List.mem_cons.1 hc with rfl | hc2
            · rw [hyes]; exact hly
            · rcases List.mem_cons.1 hc2 with rfl | hc3
              · rw [hno]; exact hln
              · exact hrl c hc3
          · rw [stackMeasure_cons, stackMeasure_cons, hyes, hno]
            rw [stackMeasure_cons] at hm
            have hmupos : 0 < maybeCount u := maybeCount_pos hfml hmay
            unfold candWeight at hm ⊢
            have e1 : maybeCount (u.set (Solution.FirstMaybe u) Truth.yes) + 1 =
                maybeCount u := hsy
            have e2 : maybeCount (u.set (Solution.FirstMaybe u) Truth.no) + 1 =
                maybeCount u := hsn
            have p1 : 2 ^ (maybeCount (u.set (Solution.FirstMaybe u) Truth.yes) + 1) =
                2 ^ (maybeCount u) := by rw [e1]
            have p2 : 2 ^ (maybeCount (u.set (Solution.FirstMaybe u) Truth.no) + 1) =
                2 ^ (maybeCount u) := by rw [e2]
            have p3 : 2 ^ (maybeCount u + 1) ≤ 2 ^ (maybeCount cand + 1) :=
              Nat.pow_le_pow_right (by omega) (by omega)
            have p4 : 2 ^ (maybeCount u + 1) = 2 * 2 ^ (maybeCount u) :=
              Nat.pow_succ'
            have p5 : 1 ≤ 2 ^ (maybeCount u) := Nat.one_le_two_pow
            omega
      · exact absurd rfl (propagateF_not_progress hp)

/-- Fuel sufficiency for the complete search: `Puzzle.Solve` always returns a
result when the constraint collection is well formed. -/
theorem Solve_isSome {slots : Nat} {cs : List Constraint}
    (hwf : ∀ c ∈ cs, c.WF slots) : ∃ out, Solve slots cs = some out := by
  unfold Solve
  refine solveF_isSome hwf _ _ _ ?_ (by omega)
  intro c hc
  rcases List.mem_cons.1 hc with rfl | hc2
  · exact List.length_replicate _ _
  · simp at hc2

end Puzzle

/-! ### Monotonicity of the catalog rules

Each rule, viewed as a function on states extended with a conflict top
element, is monotone for the refinement order: a conflict detected at a
state is detected at every refinement, and on conflict-free pairs the
results stay related.  Together with inflationarity this gives the
chaotic-iteration confluence argument for `ApplyConstraints` fixpoints. -/

theorem eq_tnot_of_ne {a v : Truth} (hv : v ≠ Truth.maybe)
    (h1 : a ≠ Truth.maybe) (h2 : a ≠ v) : a = tnot v := by
  cases a <;> cases v <;> first | rfl | simp_all [tnot]

theorem definite_pair_eq {x y : Truth} (hx : x ≠ Truth.maybe) (hy : y ≠ Truth.maybe)
    (hc : ¬((x = Truth.yes ∧ y = Truth.no) ∨ (y = Truth.yes ∧ x = Truth.no))) :
    x = y := by
  cases x <;> cases y <;> simp_all

theorem identicalConflict_mono {s t : List Truth} (hst : sle s t) {a b : Nat}
    (h : identicalConflict s a b) : identicalConflict t a b := by
  rcases h with ⟨h1, h2⟩ | ⟨h1, h2⟩
  · refine Or.inl ⟨?_, ?_⟩
    · exact (sle_tget hst (by rw [h1]; decide)).trans h1
    · exact (sle_tget hst (by rw [h2]; decide)).trans h2
  · refine Or.inr ⟨?_, ?_⟩
    · exact (sle_tget hst (by rw [h1]; decide)).trans h1
    · exact (sle_tget hst (by rw [h2]; decide)).trans h2

theorem identicalStep_cases (s : List Truth) (a b : Nat) :
    (tget s a = Truth.maybe ∧ tget s b ≠ Truth.maybe ∧
      identicalStep s a b = s.set a (tget s b)) ∨
    (tget s b = Truth.maybe ∧ tget s a ≠ Truth.maybe ∧
      identicalStep s a b = s.set b (tget s a)) ∨
    (¬identicalFires s a b ∧ identicalStep s a b = s) := by
  unfold identicalStep identicalStep2
  by_cases h1 : tget s a = Truth.maybe ∧ tget s b ≠ Truth.maybe
  · left
    rw [if_pos h1]
    have hab : a ≠ b := fun hh => h1.2 (hh ▸ h1.1)
    have hset : (Solution.Set s a (tget s b)).2 = s.set a (tget s b) := by
      rw [Set_progress h1.1 h1.2]
    rw [hset]
    have hb : tget (s.set a (tget s b)) b = tget s b := tget_set_ne hab _
    rw [if_neg]
    · exact ⟨h1.1, h1.2, rfl⟩
    · rintro ⟨hc1, _⟩
      rw [hb] at hc1
      exact h1.2 hc1
  · rw [if_neg h1]
    by_cases h2 : tget s b = Truth.maybe ∧ tget s a ≠ Truth.maybe
    · right; left
      rw [if_pos h2]
      have hset : (Solution.Set s b (tget s a)).2 = s.set b (tget s a) := by
        rw [Set_progress h2.1 h2.2]
      exact ⟨h2.1, h2.2, hset⟩
    · right; right
      rw [if_neg h2]
      exact ⟨fun hf => hf.elim h1 h2, rfl⟩

theorem identicalStep_mono {s t : List Truth} (hst : sle s t) {a b : Nat}
    (hcs : ¬identicalConflict s a b) (hct : ¬identicalConflict t a b) :
    sle (if identicalFires s a b then identicalStep s a b else s)
        (if identicalFires t a b then identicalStep t a b else t) := by
  by_cases hfs : identicalFires s a b
  · rw [if_pos hfs]
    by_cases hft : identicalFires t a b
    · rw [if_pos hft]
      rcases identicalStep_cases s a b with ⟨hsa, hsb, hse⟩ | ⟨hsb, hsa, hse⟩ |
          ⟨hnf, _⟩
      · -- the first Set fired in s, so slot b is definite, also in t
        have htb : tget t b = tget s b := sle_tget hst hsb
        rcases identicalStep_cases t a b with ⟨hta, htb2, hte⟩ | ⟨htb2, _, _⟩ |
            ⟨hnf, _⟩
        · rw [hse, hte, htb]
          exact sle_set_congr hst a (tget s b)
        · exact absurd (htb.symm ▸ htb2) hsb
        · exact absurd hft hnf
      · have hta : tget t a = tget s a := sle_tget hst hsa
        rcases identicalStep_cases t a b with ⟨hta2, _, _⟩ | ⟨htb2, hta3, hte⟩ |
            ⟨hnf, _⟩
        · exact absurd (hta.symm ▸ hta2) hsa
        · rw [hse, hte, hta]
          exact sle_set_congr hst b (tget s a)
        · exact absurd hft hnf
      · exact absurd hfs hnf
    · rw [if_neg hft]
      rcases identicalStep_cases s a b with ⟨hsa, hsb, hse⟩ | ⟨hsb, hsa, hse⟩ |
          ⟨hnf, _⟩
      · -- t has both slots definite and equal, matching the forced value
        have htb : tget t b = tget s b := sle_tget hst hsb
        have htbm : tget t b ≠ Truth.maybe := by rw [htb]; exact hsb
        have htam : tget t a ≠ Truth.maybe := by
          intro ham
          exact hft (Or.inl ⟨ham, htbm⟩)
        have heq : tget t a = tget t b := definite_pair_eq htam htbm hct
        rw [hse]
        exact sle_set_of_tget hst (heq.trans htb)
      · have hta : tget t a = tget s a := sle_tget hst hsa
        have htam : tget t a ≠ Truth.maybe := by rw [hta]; exact hsa
        have htbm : tget t b ≠ Truth.maybe := by
          intro hbm
          exact hft (Or.inr ⟨hbm, htam⟩)
        have heq : tget t b = tget t a := (definite_pair_eq htam htbm hct).symm
        rw [hse]
        exact sle_set_of_tget hst (heq.trans hta)
      · exact absurd hfs hnf
  · rw [if_neg hfs]
    by_cases hft : identicalFires t a b
    · rw [if_pos hft]
      exact sle_trans hst (sle_identicalStep t a b)
    · rw [if_neg hft]
      exact hst

theorem identicalAux_mono {ps : List (Nat × Nat)} {s t : List Truth} (hst : sle s t)
    {rs rt : Result} (hrs : rs ≠ Result.conflict) (hrt : rt ≠ Result.conflict) :
    ((identicalAux ps s rs).1 = Result.conflict →
      (identicalAux ps t rt).1 = Result.conflict) ∧
    ((identicalAux ps s rs).1 ≠ Result.conflict →
      (identicalAux ps t rt).1 ≠ Result.conflict →
      sle (identicalAux ps s rs).2 (identicalAux ps t rt).2) := by
  induction ps generalizing s t rs rt with
  | nil =>
    refine ⟨fun h => absurd h hrs, fun _ _ => hst⟩
  | cons ab rest ih =>
    rcases ab with ⟨a, b⟩
    unfold identicalAux
    by_cases hcs : identicalConflict s a b
    · have hctr := identicalConflict_mono hst hcs
      rw [if_pos hcs, if_pos hctr]
      exact ⟨fun _ => rfl, fun h _ => absurd rfl h⟩
    · rw [if_neg hcs]
      by_cases hct : identicalConflict t a b
      · rw [if_pos hct]
        refine ⟨fun _ => rfl, fun _ h => absurd rfl h⟩
      · rw [if_neg hct]
        have hnext := identicalStep_mono hst hcs hct
        by_cases hfs : identicalFires s a b <;> by_cases hft : identicalFires t a b
        · rw [if_pos hfs, if_pos hft]
          rw [if_pos hfs, if_pos hft] at hnext
          exact ih hnext (by simp) (by simp)
        · rw [if_pos hfs, if_neg hft]
          rw [if_pos hfs, if_neg hft] at hnext
          exact ih hnext (by simp) hrt
        · rw [if_neg hfs, if_pos hft]
          rw [if_neg hfs, if_pos hft] at hnext
          exact ih hnext hrs (by simp)
        · rw [if_neg hfs, if_neg hft]
          rw [if_neg hfs, if_neg hft] at hnext
          exact ih hnext hrs hrt

theorem usub_conflict_transfer {n ms bs mt bt : Nat} (hms : ms ≤ mt)
    (hsum : mt + bt ≤ ms + bs) (hs : bs < usub n ms) : bt < usub n mt := by
  unfold usub at *
  omega

theorem usub_branch2 {n ms bs mt bt : Nat}
    (hbs : bs = usub n ms) (hmt_ge : ms ≤ mt)
    (hsum : mt + bt ≤ ms + bs) (hnc : ¬ (bt < usub n mt)) :
    mt + bt = ms + bs ∧ bt = usub n mt := by
  unfold usub at *
  omega

theorem usub_self_le {n ms : Nat} (hms : ms ≤ n) : usub n ms ≤ n - ms := by
  unfold usub
  omega

theorem tnot_ne_self {v : Truth} (hv : v ≠ Truth.maybe) : tnot v ≠ v := by
  cases v <;> first | exact absurd rfl hv | decide

theorem maybe_of_tle {a b : Truth} (h : tle a b) (hb : b = Truth.maybe) :
    a = Truth.maybe := by
  rcases h with h | h
  · exact h
  · exact hb ▸ h.symm

theorem tget_pair_contrib_le {s t : List Truth} (hst : sle s t) {v : Truth}
    (hv : v ≠ Truth.maybe) (i : Nat) :
    (if tget t i = v then (1 : Nat) else 0) +
      (if tget t i = Truth.maybe then (1 : Nat) else 0) ≤
    (if tget s i = v then (1 : Nat) else 0) +
      (if tget s i = Truth.maybe then (1 : Nat) else 0) := by
  by_cases hs : tget s i = Truth.maybe
  · have hsv : tget s i ≠ v := fun hh => hv (hh.symm.trans hs)
    rw [if_neg hsv, if_pos hs]
    have hnot : ¬(tget t i = v ∧ tget t i = Truth.maybe) := by
      rintro ⟨h1, h2⟩; exact hv (h1.symm.trans h2)
    by_cases h1 : tget t i = v
    · rw [if_pos h1, if_neg fun h2 => hnot ⟨h1, h2⟩]
    · rw [if_neg h1]
      by_cases h2 : tget t i = Truth.maybe
      · rw [if_pos h2]
      · rw [if_neg h2]; omega
  · rw [sle_tget hst hs]

theorem Count_succ_le {s t : List Truth} (hst : sle s t) {idx : List Nat}
    {j : Nat} {v : Truth} (hv : v ≠ Truth.maybe) (hj : j ∈ idx)
    (hsj : tget s j = Truth.maybe) (htj : tget t j = v) :
    Solution.Count s idx v + 1 ≤ Solution.Count t idx v := by
  induction idx with
  | nil => simp at hj
  | cons i rest ih =>
    rw [Count_cons, Count_cons]
    rcases List.mem_cons.1 hj with rfl | hjr
    · rw [if_neg (by rw [hsj]; intro hh; exact hv hh.symm), if_pos htj]
      have := Count_le_of_sle hst rest hv
      omega
    · have hhead : (if tget s i = v then (1 : Nat) else 0) ≤
          (if tget t i = v then (1 : Nat) else 0) := by
        by_cases hsi : tget s i = v
        · rw [if_pos hsi, if_pos ((sle_tget hst (by rw [hsi]; exact hv)).trans hsi)]
        · simp [hsi]
      have := ih hjr
      omega

theorem Count_drop {s t : List Truth} (hst : sle s t) {idx : List Nat}
    {j : Nat} {v : Truth} (hv : v ≠ Truth.maybe) (hj : j ∈ idx)
    (hsj : tget s j = Truth.maybe) (htj : tget t j = tnot v) :
    Solution.Count t idx v + Solution.Count t idx Truth.maybe + 1 ≤
      Solution.Count s idx v + Solution.Count s idx Truth.maybe := by
  induction idx with
  | nil => simp at hj
  | cons i rest ih =>
    rw [Count_cons, Count_cons, Count_cons, Count_cons]
    rcases List.mem_cons.1 hj with rfl | hjr
    · have h1 : tget s j ≠ v := by rw [hsj]; intro hh; exact hv hh.symm
      have h2 : tget t j ≠ v := by rw [htj]; exact tnot_ne_self hv
      have h3 : tget t j ≠ Truth.maybe := by rw [htj]; exact tnot_ne_maybe hv
      rw [if_neg h1, if_pos hsj, if_neg h2, if_neg h3]
      have := Count_add_maybe_le_of_sle hst rest hv
      omega
    · have hhead := tget_pair_contrib_le hst hv i
      have := ih hjr
      omega

/-- Unfolding of `ExactlyNOf::Evaluate` with the counts spelled out. -/
theorem ExactlyN_eval (n : Nat) (idx : List Nat) (v : Truth) (s : List Truth) :
    (Constraint.ExactlyNOf n idx v).Evaluate s =
      if Solution.Count s idx Truth.maybe < usub n (Solution.Count s idx v) then
        (Result.conflict, s)
      else if Solution.Count s idx v > n then (Result.conflict, s)
      else if 0 < Solution.Count s idx Truth.maybe then
        if Solution.Count s idx v = n then
          (Result.progress, forceMaybes s idx (tnot v))
        else if Solution.Count s idx Truth.maybe =
            usub n (Solution.Count s idx v) then
          (Result.progress, forceMaybes s idx v)
        else (Result.noChange, s)
      else (Result.noChange, s) := rfl

theorem ExactlyN_conflict_mono {n : Nat} {idx : List Nat} {v : Truth}
    {s t : List Truth} (hv : v ≠ Truth.maybe) (hst : sle s t)
    (h : ((Constraint.ExactlyNOf n idx v).Evaluate s).1 = Result.conflict) :
    ((Constraint.ExactlyNOf n idx v).Evaluate t).1 = Result.conflict := by
  have hK1 : Solution.Count s idx v ≤ Solution.Count t idx v :=
    Count_le_of_sle hst idx hv
  have hK2 : Solution.Count t idx v + Solution.Count t idx Truth.maybe ≤
      Solution.Count s idx v + Solution.Count s idx Truth.maybe :=
    Count_add_maybe_le_of_sle hst idx hv
  rw [ExactlyN_eval] at h ⊢
  by_cases h1 : Solution.Count s idx Truth.maybe <
      usub n (Solution.Count s idx v)
  · rw [if_pos (usub_conflict_transfer hK1 hK2 h1)]
  · rw [if_neg h1] at h
    by_cases h2 : Solution.Count s idx v > n
    · by_cases h1t : Solution.Count t idx Truth.maybe <
          usub n (Solution.Count t idx v)
      · rw [if_pos h1t]
      · rw [if_neg h1t, if_pos (by omega)]
    · rw [if_neg h2] at h
      exfalso
      split at h
      · split at h
        · simp at h
        · split at h
          · simp at h
          · simp at h
      · simp at h

theorem eq_of_ne_tnot {a v : Truth} (hv : v ≠ Truth.maybe) (h1 : a ≠ Truth.maybe)
    (h2 : a ≠ tnot v) : a = v := by
  cases a <;> cases v <;> first | rfl | simp_all [tnot]

theorem ExactlyN_progress_mono {n : Nat} {idx : List Nat} {v : Truth}
    {s t s1 : List Truth} (hv : v ≠ Truth.maybe) (hst : sle s t)
    (hins : ∀ i ∈ idx, i < s.length)
    (hprog : (Constraint.ExactlyNOf n idx v).Evaluate s = (Result.progress, s1))
    (hct : ((Constraint.ExactlyNOf n idx v).Evaluate t).1 ≠ Result.conflict) :
    sle s1 ((Constraint.ExactlyNOf n idx v).Evaluate t).2 := by
  have hlen : s.length = t.length := hst.1
  have hint : ∀ i ∈ idx, i < t.length := fun i hi => hlen ▸ hins i hi
  have hK1 : Solution.Count s idx v ≤ Solution.Count t idx v :=
    Count_le_of_sle hst idx hv
  have hK2 : Solution.Count t idx v + Solution.Count t idx Truth.maybe ≤
      Solution.Count s idx v + Solution.Count s idx Truth.maybe :=
    Count_add_maybe_le_of_sle hst idx hv
  have hnc1t : ¬ (Solution.Count t idx Truth.maybe <
      usub n (Solution.Count t idx v)) := by
    intro hc
    exact hct (by rw [ExactlyN_eval, if_pos hc])
  have hnc2t : ¬ (Solution.Count t idx v > n) := by
    intro hc
    exact hct (by rw [ExactlyN_eval, if_neg hnc1t, if_pos hc])
  rw [ExactlyN_eval] at hprog
  split at hprog
  · injection hprog with h1; cases h1
  · split at hprog
    · injection hprog with h1; cases h1
    · split at hprog
      · rename_i hnc1s hnc2s hbs_pos
        split at hprog
        · -- matches == n: close off the remaining MAYBEs with the opposite value
          rename_i hms_n
          injection hprog with h1 h2
          subst h2
          have hmt_n : Solution.Count t idx v = n := by omega
          by_cases hbt : 0 < Solution.Count t idx Truth.maybe
          · have het : (Constraint.ExactlyNOf n idx v).Evaluate t =
                (Result.progress, forceMaybes t idx (tnot v)) := by
              rw [ExactlyN_eval, if_neg hnc1t, if_neg hnc2t, if_pos hbt,
                if_pos hmt_n]
            rw [het]
            refine ⟨?_, fun j => ?_⟩
            · rw [length_forceMaybes, length_forceMaybes, hlen]
            · rw [tget_forceMaybes (tnot_ne_maybe hv) hins j,
                tget_forceMaybes (tnot_ne_maybe hv) hint j]
              by_cases hcond : j ∈ idx ∧ tget s j = Truth.maybe
              · rw [if_pos hcond]
                by_cases hcondt : j ∈ idx ∧ tget t j = Truth.maybe
                · rw [if_pos hcondt]; exact tle_refl _
                · rw [if_neg hcondt]
                  have htm : tget t j ≠ Truth.maybe := fun hh => hcondt ⟨hcond.1, hh⟩
                  have htv : tget t j ≠ v := by
                    intro hh
                    have := Count_succ_le hst hv hcond.1 hcond.2 hh
                    omega
                  exact Or.inr (eq_tnot_of_ne hv htm htv)
              · rw [if_neg hcond]
                by_cases hcondt : j ∈ idx ∧ tget t j = Truth.maybe
                · exact absurd ⟨hcondt.1, maybe_of_tle (hst.2 j) hcondt.2⟩ hcond
                · rw [if_neg hcondt]; exact hst.2 j
          · have het : (Constraint.ExactlyNOf n idx v).Evaluate t =
                (Result.noChange, t) := by
              rw [ExactlyN_eval, if_neg hnc1t, if_neg hnc2t, if_neg hbt]
            rw [het]
            refine ⟨?_, fun j => ?_⟩
            · rw [length_forceMaybes, hlen]
            · rw [tget_forceMaybes (tnot_ne_maybe hv) hins j]
              by_cases hcond : j ∈ idx ∧ tget s j = Truth.maybe
              · rw [if_pos hcond]
                have hbt0 : Solution.Count t idx Truth.maybe = 0 := by omega
                have htm : tget t j ≠ Truth.maybe := Count_eq_zero.1 hbt0 j hcond.1
                have htv : tget t j ≠ v := by
                  intro hh
                  have := Count_succ_le hst hv hcond.1 hcond.2 hh
                  omega
                exact Or.inr (eq_tnot_of_ne hv htm htv)
              · rw [if_neg hcond]; exact hst.2 j
        · split at hprog
          · -- maybes == n - matches: force the remaining MAYBEs to the value
            rename_i hms_ne hbs_eq
            injection hprog with h1 h2
            subst h2
            have hquad := usub_branch2 hbs_eq hK1 hK2 hnc1t
            by_cases hbt : 0 < Solution.Count t idx Truth.maybe
            · have hmt_ne : Solution.Count t idx v ≠ n := by
                intro hh
                have hle := usub_self_le (Nat.le_refl n)
                rw [hh] at hquad
                omega
              have het : (Constraint.ExactlyNOf n idx v).Evaluate t =
                  (Result.progress, forceMaybes t idx v) := by
                rw [ExactlyN_eval, if_neg hnc1t, if_neg hnc2t, if_pos hbt,
                  if_neg hmt_ne, if_pos hquad.2]
              rw [het]
              refine ⟨?_, fun j => ?_⟩
              · rw [length_forceMaybes, length_forceMaybes, hlen]
              · rw [tget_forceMaybes hv hins j, tget_forceMaybes hv hint j]
                by_cases hcond : j ∈ idx ∧ tget s j = Truth.maybe
                · rw [if_pos hcond]
                  by_cases hcondt : j ∈ idx ∧ tget t j = Truth.maybe
                  · rw [if_pos hcondt]; exact tle_refl _
                  · rw [if_neg hcondt]
                    have htm : tget t j ≠ Truth.maybe :=
                      fun hh => hcondt ⟨hcond.1, hh⟩
                    have htnv : tget t j ≠ tnot v := by
                      intro hh
                      have := Count_drop hst hv hcond.1 hcond.2 hh
                      omega
                    exact Or.inr (eq_of_ne_tnot hv htm htnv)
                · rw [if_neg hcond]
                  by_cases hcondt : j ∈ idx ∧ tget t j = Truth.maybe
                  · exact absurd ⟨hcondt.1, maybe_of_tle (hst.2 j) hcondt.2⟩ hcond
                  · rw [if_neg hcondt]; exact hst.2 j
            · have het : (Constraint.ExactlyNOf n idx v).Evaluate t =
                  (Result.noChange, t) := by
                rw [ExactlyN_eval, if_neg hnc1t, if_neg hnc2t, if_neg hbt]
              rw [het]
              refine ⟨?_, fun j => ?_⟩
              · rw [length_forceMaybes, hlen]
              · rw [tget_forceMaybes hv hins j]
                by_cases hcond : j ∈ idx ∧ tget s j = Truth.maybe
                · rw [if_pos hcond]
                  have hbt0 : Solution.Count t idx Truth.maybe = 0 := by omega
                  have htm : tget t j ≠ Truth.maybe :=
                    Count_eq_zero.1 hbt0 j hcond.1
                  have htnv : tget t j ≠ tnot v := by
                    intro hh
                    have := Count_drop hst hv hcond.1 hcond.2 hh
                    omega
                  exact Or.inr (eq_of_ne_tnot hv htm htnv)
                · rw [if_neg hcond]; exact hst.2 j
          · injection hprog with h1; cases h1
      · injection hprog with h1; cases h1

theorem Count_congr_iff {s t : List Truth} {idx : List Nat} {v : Truth}
    (h : ∀ j ∈ idx, (tget s j = v ↔ tget t j = v)) :
    Solution.Count s idx v = Solution.Count t idx v := by
  induction idx with
  | nil => rfl
  | cons i rest ih =>
    rw [Count_cons, Count_cons]
    have hi := h i (List.mem_cons_self _ _)
    rw [ih fun j hj => h j (List.mem_cons_of_mem _ hj)]
    by_cases hsi : tget s i = v
    · rw [if_pos hsi, if_pos (hi.1 hsi)]
    · rw [if_neg hsi, if_neg fun hh => hsi (hi.2 hh)]

theorem Fixed_conflict_mono {i : Nat} {v : Truth} {s t : List Truth} (hst : sle s t)
    (h : ((Constraint.Fixed i v).Evaluate s).1 = Result.conflict) :
    ((Constraint.Fixed i v).Evaluate t).1 = Result.conflict := by
  simp only [Constraint.Evaluate] at h ⊢
  rcases Set_cases s i v with ⟨_, he⟩ | ⟨h1, h2, he⟩ | ⟨_, _, he⟩ <;> rw [he] at h
  · simp at h
  · have hti : tget t i = tget s i := sle_tget hst h2
    rw [Set_conflict (by rw [hti]; exact h1) (by rw [hti]; exact h2)]
  · simp at h

theorem Fixed_progress_mono {i : Nat} {v : Truth} {s t s1 : List Truth}
    (hst : sle s t)
    (hprog : (Constraint.Fixed i v).Evaluate s = (Result.progress, s1))
    (hct : ((Constraint.Fixed i v).Evaluate t).1 ≠ Result.conflict) :
    sle s1 ((Constraint.Fixed i v).Evaluate t).2 := by
  simp only [Constraint.Evaluate] at hprog hct ⊢
  rcases Set_progress_inv hprog with ⟨hm, hv, hset⟩
  subst hset
  by_cases htv : tget t i = v
  · rw [Set_eq_val htv]
    exact sle_set_of_tget hst htv
  · by_cases htm : tget t i = Truth.maybe
    · rw [Set_progress htm hv]
      exact sle_set_congr hst i v
    · exact absurd (by rw [Set_conflict htv htm]) hct

theorem IfPThenQ_conflict_mono {p q : Nat} {s t : List Truth} (hst : sle s t)
    (h : ((Constraint.IfPThenQ p q).Evaluate s).1 = Result.conflict) :
    ((Constraint.IfPThenQ p q).Evaluate t).1 = Result.conflict := by
  have hcond : tget s p = Truth.yes ∧ tget s q = Truth.no := by
    by_contra hc
    simp only [Constraint.Evaluate] at h
    rw [if_neg hc] at h
    split at h
    · rename_i hg
      rcases Set_cases s q Truth.yes with ⟨_, he⟩ | ⟨_, h2, he⟩ | ⟨_, _, he⟩ <;>
        rw [he] at h
      · simp at h
      · exact h2 hg.2
      · simp at h
    · split at h
      · rename_i hg
        rcases Set_cases s p Truth.no with ⟨_, he⟩ | ⟨_, h2, he⟩ | ⟨_, _, he⟩ <;>
          rw [he] at h
        · simp at h
        · exact h2 hg.2
        · simp at h
      · simp at h
  have hpt : tget t p = Truth.yes :=
    (sle_tget hst (by rw [hcond.1]; decide)).trans hcond.1
  have hqt : tget t q = Truth.no :=
    (sle_tget hst (by rw [hcond.2]; decide)).trans hcond.2
  simp only [Constraint.Evaluate]
  rw [if_pos ⟨hpt, hqt⟩]

theorem IfPThenQ_progress_mono {p q : Nat} {s t s1 : List Truth} (hst : sle s t)
    (hprog : (Constraint.IfPThenQ p q).Evaluate s = (Result.progress, s1))
    (hct : ((Constraint.IfPThenQ p q).Evaluate t).1 ≠ Result.conflict) :
    sle s1 ((Constraint.IfPThenQ p q).Evaluate t).2 := by
  simp only [Constraint.Evaluate] at hprog
  split at hprog
  · injection hprog with h1; cases h1
  · split at hprog
    · rename_i hnc hg
      rcases Set_progress_inv hprog with ⟨hm, _, hset⟩
      subst hset
      have hpt : tget t p = Truth.yes :=
        (sle_tget hst (by rw [hg.1]; decide)).trans hg.1
      cases htq : tget t q with
      | no =>
        exact absurd
          (by simp only [Constraint.Evaluate]; rw [if_pos ⟨hpt, htq⟩]) hct
      | maybe =>
        have het : (Constraint.IfPThenQ p q).Evaluate t =
            (Result.progress, t.set q Truth.yes) := by
          simp only [Constraint.Evaluate]
          rw [if_neg (by simp [htq]), if_pos ⟨hpt, htq⟩,
            Set_progress htq (by decide)]
        rw [het]
        exact sle_set_congr hst q Truth.yes
      | yes =>
        have het : (Constraint.IfPThenQ p q).Evaluate t = (Result.noChange, t) := by
          simp only [Constraint.Evaluate]
          rw [if_neg (by simp [htq]), if_neg (by simp [htq]),
            if_neg (by simp [htq])]
        rw [het]
        exact sle_set_of_tget hst htq
    · split at hprog
      · rename_i hnc1 hnc2 hg
        rcases Set_progress_inv hprog with ⟨hm, _, hset⟩
        subst hset
        have hqt : tget t q = Truth.no :=
          (sle_tget hst (by rw [hg.1]; decide)).trans hg.1
        cases htp : tget t p with
        | no =>
          have het : (Constraint.IfPThenQ p q).Evaluate t = (Result.noChange, t) := by
            simp only [Constraint.Evaluate]
            rw [if_neg (by simp [htp]), if_neg (by simp [htp]),
              if_neg (by simp [htp])]
          rw [het]
          exact sle_set_of_tget hst htp
        | maybe =>
          have het : (Constraint.IfPThenQ p q).Evaluate t =
              (Result.progress, t.set p Truth.no) := by
            simp only [Constraint.Evaluate]
            rw [if_neg (by simp [htp]), if_neg (by simp [htp]),
              if_pos ⟨hqt, htp⟩, Set_progress htp (by decide)]
          rw [het]
          exact sle_set_congr hst p Truth.no
        | yes =>
          exact absurd
            (by simp only [Constraint.Evaluate]; rw [if_pos ⟨htp, hqt⟩]) hct
      · injection hprog with h1; cases h1

/-- Unfolding of `IfPThenOneOrMoreOfQ::Evaluate` with the counts spelled out. -/
theorem IfPOne_eval (p : Nat) (q : List Nat) (s : List Truth) :
    (Constraint.IfPThenOneOrMoreOfQ p q).Evaluate s =
      if tget s p = Truth.yes ∧ Solution.Count s q Truth.yes = 0 ∧
          Solution.Count s q Truth.maybe = 0 then (Result.conflict, s)
      else if tget s p = Truth.yes ∧ Solution.Count s q Truth.yes = 0 ∧
          Solution.Count s q Truth.maybe = 1 then
        match q.find? (fun i => tget s i = Truth.maybe) with
        | some i => Solution.Set s i Truth.yes
        | none => (Result.noChange, s)
      else if tget s p = Truth.maybe ∧ Solution.Count s q Truth.yes = 0 ∧
          Solution.Count s q Truth.maybe = 0 then Solution.Set s p Truth.no
      else (Result.noChange, s) := rfl

theorem all_no_of_counts {s : List Truth} {q : List Nat}
    (hy : Solution.Count s q Truth.yes = 0)
    (hm : Solution.Count s q Truth.maybe = 0) :
    ∀ j ∈ q, tget s j = Truth.no := by
  intro j hj
  have h1 := Count_eq_zero.1 hy j hj
  have h2 := Count_eq_zero.1 hm j hj
  cases hsj : tget s j
  · rfl
  · exact absurd hsj h2
  · exact absurd hsj h1

theorem IfPOne_conflict_mono {p : Nat} {q : List Nat} {s t : List Truth}
    (hst : sle s t)
    (h : ((Constraint.IfPThenOneOrMoreOfQ p q).Evaluate s).1 = Result.conflict) :
    ((Constraint.IfPThenOneOrMoreOfQ p q).Evaluate t).1 = Result.conflict := by
  have hcond : tget s p = Truth.yes ∧ Solution.Count s q Truth.yes = 0 ∧
      Solution.Count s q Truth.maybe = 0 := by
    by_contra hc
    rw [IfPOne_eval, if_neg hc] at h
    split at h
    · split at h
      · rename_i i hfind
        have hmi : tget s i = Truth.maybe := by
          simpa using List.find?_some hfind
        rcases Set_cases s i Truth.yes with ⟨_, he⟩ | ⟨_, h2, he⟩ | ⟨_, _, he⟩ <;>
          rw [he] at h
        · simp at h
        · exact h2 hmi
        · simp at h
      · simp at h
    · split at h
      · rename_i hg
        rcases Set_cases s p Truth.no with ⟨_, he⟩ | ⟨_, h2, he⟩ | ⟨_, _, he⟩ <;>
          rw [he] at h
        · simp at h
        · exact h2 hg.1
        · simp at h
      · simp at h
  have hall := all_no_of_counts hcond.2.1 hcond.2.2
  have hallt : ∀ j ∈ q, tget t j = Truth.no := fun j hj =>
    (sle_tget hst (by rw [hall j hj]; decide)).trans (hall j hj)
  have hyt : Solution.Count t q Truth.yes = 0 :=
    Count_eq_zero.2 fun j hj => by rw [hallt j hj]; decide
  have hmt : Solution.Count t q Truth.maybe = 0 :=
    Count_eq_zero.2 fun j hj => by rw [hallt j hj]; decide
  have hpt : tget t p = Truth.yes :=
    (sle_tget hst (by rw [hcond.1]; decide)).trans hcond.1
  rw [IfPOne_eval, if_pos ⟨hpt, hyt, hmt⟩]

theorem IfPOne_progress_mono {p : Nat} {q : List Nat} {s t s1 : List Truth}
    (hst : sle s t)
    (hprog : (Constraint.IfPThenOneOrMoreOfQ p q).Evaluate s =
      (Result.progress, s1))
    (hct : ((Constraint.IfPThenOneOrMoreOfQ p q).Evaluate t).1 ≠
      Result.conflict) :
    sle s1 ((Constraint.IfPThenOneOrMoreOfQ p q).Evaluate t).2 := by
  rw [IfPOne_eval] at hprog
  split at hprog
  · injection hprog with h1; cases h1
  · split at hprog
    · rename_i hnc hg
      split at hprog
      · rename_i i0 hfind
        have hi0q : i0 ∈ q := List.mem_of_find?_eq_some hfind
        have hi0m : tget s i0 = Truth.maybe := by
          simpa using List.find?_some hfind
        rcases Set_progress_inv hprog with ⟨_, _, hset⟩
        subst hset
        have hpt : tget t p = Truth.yes :=
          (sle_tget hst (by rw [hg.1]; decide)).trans hg.1
        have hallno : ∀ j ∈ q, tget s j ≠ Truth.maybe → tget s j = Truth.no := by
          intro j hj hjm
          have h1 := Count_eq_zero.1 hg.2.1 j hj
          cases hsj : tget s j
          · rfl
          · exact absurd hsj hjm
          · exact absurd hsj h1
        cases hti : tget t i0 with
        | no =>
          have hallt : ∀ j ∈ q, tget t j = Truth.no := by
            intro j hj
            by_cases hjm : tget s j = Truth.maybe
            · have hji : j = i0 := Count_one_unique hg.2.2 j hj hjm i0 hi0q hi0m
              rw [hji, hti]
            · exact (sle_tget hst hjm).trans (hallno j hj hjm)
          have hyt : Solution.Count t q Truth.yes = 0 :=
            Count_eq_zero.2 fun j hj => by rw [hallt j hj]; decide
          have hmt : Solution.Count t q Truth.maybe = 0 :=
            Count_eq_zero.2 fun j hj => by rw [hallt j hj]; decide
          exact absurd (by rw [IfPOne_eval, if_pos ⟨hpt, hyt, hmt⟩]) hct
        | yes =>
          have hy_pos : 0 < Solution.Count t q Truth.yes :=
            Count_pos.2 ⟨i0, hi0q, hti⟩
          have het : (Constraint.IfPThenOneOrMoreOfQ p q).Evaluate t =
              (Result.noChange, t) := by
            rw [IfPOne_eval, if_neg (fun hc => by have := hc.2.1; omega),
              if_neg (fun hc => by have := hc.2.1; omega),
              if_neg (fun hc => by have := hc.2.1; omega)]
          rw [het]
          exact sle_set_of_tget hst hti
        | maybe =>
          have hiff : ∀ j ∈ q, (tget s j = Truth.maybe ↔ tget t j = Truth.maybe) := by
            intro j hj
            constructor
            · intro hjm
              have hji : j = i0 := Count_one_unique hg.2.2 j hj hjm i0 hi0q hi0m
              rw [hji]; exact hti
            · intro hjm
              exact maybe_of_tle (hst.2 j) hjm
          have hpred : ∀ j ∈ q,
              (fun i => decide (tget s i = Truth.maybe)) j =
              (fun i => decide (tget t i = Truth.maybe)) j := by
            intro j hj
            by_cases hd : tget s j = Truth.maybe
            · simp [hd, (hiff j hj).1 hd]
            · have hd2 : ¬ tget t j = Truth.maybe := fun hh => hd ((hiff j hj).2 hh)
              simp [hd, hd2]
          have hfind_t : q.find? (fun i => tget t i = Truth.maybe) = some i0 :=
            (find?_congr_pred hpred).symm.trans hfind
          have hyt : Solution.Count t q Truth.yes = 0 := by
            refine Count_eq_zero.2 fun j hj => ?_
            by_cases hjm : tget s j = Truth.maybe
            · rw [(hiff j hj).1 hjm]; decide
            · rw [sle_tget hst hjm, hallno j hj hjm]; decide
          have hmt1 : Solution.Count t q Truth.maybe = 1 := by
            rw [← Count_congr_iff hiff]
            exact hg.2.2
          have het : (Constraint.IfPThenOneOrMoreOfQ p q).Evaluate t =
              (Result.progress, t.set i0 Truth.yes) := by
            rw [IfPOne_eval, if_neg (fun hc => by have := hc.2.2; omega),
              if_pos ⟨hpt, hyt, hmt1⟩, hfind_t]
            show Solution.Set t i0 Truth.yes = (Result.progress, t.set i0 Truth.yes)
            rw [Set_progress hti (by decide)]
          rw [het]
          exact sle_set_congr hst i0 Truth.yes
      · injection hprog with h1; cases h1
    · split at hprog
      · rename_i hnc1 hnc2 hg
        rcases Set_progress_inv hprog with ⟨hpm, _, hset⟩
        subst hset
        have hall := all_no_of_counts hg.2.1 hg.2.2
        have hallt : ∀ j ∈ q, tget t j = Truth.no := fun j hj =>
          (sle_tget hst (by rw [hall j hj]; decide)).trans (hall j hj)
        have hyt : Solution.Count t q Truth.yes = 0 :=
          Count_eq_zero.2 fun j hj => by rw [hallt j hj]; decide
        have hmt : Solution.Count t q Truth.maybe = 0 :=
          Count_eq_zero.2 fun j hj => by rw [hallt j hj]; decide
        cases htp : tget t p with
        | no =>
          have het : (Constraint.IfPThenOneOrMoreOfQ p q).Evaluate t =
              (Result.noChange, t) := by
            rw [IfPOne_eval, if_neg (by simp [htp]), if_neg (by simp [htp]),
              if_neg (by simp [htp])]
          rw [het]
          exact sle_set_of_tget hst htp
        | maybe =>
          have het : (Constraint.IfPThenOneOrMoreOfQ p q).Evaluate t =
              (Result.progress, t.set p Truth.no) := by
            rw [IfPOne_eval, if_neg (by simp [htp]), if_neg (by simp [htp]),
              if_pos ⟨htp, hyt, hmt⟩, Set_progress htp (by decide)]
          rw [het]
          exact sle_set_congr hst p Truth.no
        | yes =>
          exact absurd (by rw [IfPOne_eval, if_pos ⟨htp, hyt, hmt⟩]) hct
      · injection hprog with h1; cases h1

/-! ### Assembled monotonicity and the confluence of propagation -/

theorem evaluate_mono_conflict {slots : Nat} {c : Constraint} (hwf : c.WF slots)
    {s t : List Truth} (hst : sle s t)
    (h : (c.Evaluate s).1 = Result.conflict) :
    (c.Evaluate t).1 = Result.conflict := by
  cases c with
  | Fixed i v => exact Fixed_conflict_mono hst h
  | IfPThenQ p q => exact IfPThenQ_conflict_mono hst h
  | Identical i1 i2 =>
    exact (identicalAux_mono hst (by decide) (by decide)).1 h
  | ExactlyNOf n idx v => exact ExactlyN_conflict_mono hwf.2 hst h
  | IfPThenOneOrMoreOfQ p q => exact IfPOne_conflict_mono hst h

theorem evaluate_mono_sle {slots : Nat} {c : Constraint} (hwf : c.WF slots)
    {s t : List Truth} (hs : s.length = slots) (hst : sle s t)
    (hcs : (c.Evaluate s).1 ≠ Result.conflict)
    (hct : (c.Evaluate t).1 ≠ Result.conflict) :
    sle (c.Evaluate s).2 (c.Evaluate t).2 := by
  rcases hes : c.Evaluate s with ⟨rs, ss⟩
  cases rs
  · rw [hes] at hcs; exact absurd rfl hcs
  · have hss : ss = s := evaluate_noChange hes
    show sle ss (c.Evaluate t).2
    rw [hss]
    exact sle_trans hst (evaluate_sle c t)
  · show sle ss (c.Evaluate t).2
    cases c with
    | Fixed i v => exact Fixed_progress_mono hst hes hct
    | IfPThenQ p q => exact IfPThenQ_progress_mono hst hes hct
    | Identical i1 i2 =>
      have hes' : identicalAux (i1.zip i2) s Result.noChange =
          (Result.progress, ss) := hes
      have h1 : (identicalAux (i1.zip i2) s Result.noChange).1 ≠
          Result.conflict := by
        rw [hes']; simp
      have hmono := (identicalAux_mono hst (show Result.noChange ≠ Result.conflict
        by decide) (show Result.noChange ≠ Result.conflict by decide)).2 h1 hct
      rw [hes'] at hmono
      exact hmono
    | ExactlyNOf n idx v =>
      exact ExactlyN_progress_mono hwf.2 hst (fun i hi => hs ▸ hwf.1 i hi) hes hct
    | IfPThenOneOrMoreOfQ p q => exact IfPOne_progress_mono hst hes hct

theorem applyAux_bound {slots : Nat} {cs : List Constraint}
    (hwf : ∀ c ∈ cs, c.WF slots) {s z : List Truth} {r : Result}
    (hs : s.length = slots) (hsz : sle s z) (hfix : IsFix cs z)
    (hr : r ≠ Result.conflict) {res : Result} {s1 : List Truth}
    (h : Puzzle.applyAux cs s r = (res, s1)) :
    res ≠ Result.conflict ∧ sle s1 z := by
  induction cs generalizing s r with
  | nil =>
    unfold Puzzle.applyAux at h
    injection h with h1 h2
    subst h1; subst h2
    exact ⟨hr, hsz⟩
  | cons c rest ih =>
    have hwfc := hwf c (List.mem_cons_self _ _)
    have hwf' : ∀ d ∈ rest, d.WF slots :=
      fun d hd => hwf d (List.mem_cons_of_mem _ hd)
    have hfixc := hfix c (List.mem_cons_self _ _)
    have hfix' : IsFix rest z := fun d hd => hfix d (List.mem_cons_of_mem _ hd)
    rcases hc : c.Evaluate s with ⟨rc, sc⟩
    unfold Puzzle.applyAux at h
    rw [hc] at h
    cases rc
    · -- a conflict at `s` would transfer to the fixpoint `z`, impossible
      exfalso
      have hconf : (c.Evaluate z).1 = Result.conflict :=
        evaluate_mono_conflict hwfc hsz (by rw [hc])
      rw [hfixc] at hconf
      cases hconf
    · have hsc : sc = s := evaluate_noChange hc
      subst hsc
      exact ih hwf' hs hsz hfix' hr h
    · have hcs : (c.Evaluate s).1 ≠ Result.conflict := by rw [hc]; simp
      have hct : (c.Evaluate z).1 ≠ Result.conflict := by rw [hfixc]; simp
      have hmono := evaluate_mono_sle hwfc hs hsz hcs hct
      rw [hc, hfixc] at hmono
      have hlen : sc.length = slots := by
        have := evaluate_length c s
        rw [hc] at this
        rw [this, hs]
      exact ih hwf' hlen hmono hfix' (by simp) h

theorem propagateF_bound {slots : Nat} {cs : List Constraint}
    (hwf : ∀ c ∈ cs, c.WF slots) {fuel : Nat} {s z u : List Truth} {res : Result}
    (hs : s.length = slots) (hsz : sle s z) (hfix : IsFix cs z)
    (h : Puzzle.propagateF fuel cs s = some (res, u)) :
    res ≠ Result.conflict ∧ sle u z := by
  induction fuel generalizing s with
  | zero => cases h
  | succ f ih =>
    rcases hap : Puzzle.ApplyConstraints cs s with ⟨ra, sa⟩
    have hap' : Puzzle.applyAux cs s Result.noChange = (ra, sa) := hap
    have hb := applyAux_bound hwf hs hsz hfix
      (show Result.noChange ≠ Result.conflict by decide) hap'
    unfold Puzzle.propagateF at h
    rw [hap] at h
    cases ra
    · exact absurd rfl hb.1
    · injection h with h1
      injection h1 with h2 h3
      subst h2; subst h3
      exact ⟨by simp, hb.2⟩
    · have hlen : sa.length = slots := by
        have := Puzzle.ApplyConstraints_length cs s
        rw [hap] at this
        rw [this, hs]
      exact ih hlen hb.2 h

theorem applyAux_conflict_member {slots : Nat} (cs : List Constraint) :
    ∀ (s z : List Truth) (r : Result), (∀ c ∈ cs, c.WF slots) →
      r ≠ Result.conflict →
      Puzzle.applyAux cs s r = (Result.conflict, z) →
      ∃ c ∈ cs, (c.Evaluate z).1 = Result.conflict := by
  induction cs with
  | nil =>
    intro s z r _ hr h
    unfold Puzzle.applyAux at h
    injection h with h1 _
    exact absurd h1 hr
  | cons c rest ih =>
    intro s z r hwf hr h
    have hwfc := hwf c (List.mem_cons_self _ _)
    have hwf' : ∀ d ∈ rest, d.WF slots :=
      fun d hd => hwf d (List.mem_cons_of_mem _ hd)
    rcases hc : c.Evaluate s with ⟨rc, sc⟩
    unfold Puzzle.applyAux at h
    rw [hc] at h
    cases rc
    · -- the pass short-circuited at `c`; its conflict condition still holds
      -- at the returned state because evaluation only refines the state
      have h' : ((Result.conflict, sc) : Result × List Truth) =
          (Result.conflict, z) := h
      injection h' with _ h2
      refine ⟨c, List.mem_cons_self _ _, ?_⟩
      have hs : sle s sc := by
        have hs0 := evaluate_sle c s
        rw [hc] at hs0
        exact hs0
      exact evaluate_mono_conflict hwfc (h2 ▸ hs) (by rw [hc])
    · have h' : Puzzle.applyAux rest sc r = (Result.conflict, z) := h
      obtain ⟨d, hd, hdc⟩ := ih sc z r hwf' hr h'
      exact ⟨d, List.mem_cons_of_mem _ hd, hdc⟩
    · have h' : Puzzle.applyAux rest sc Result.progress = (Result.conflict, z) := h
      obtain ⟨d, hd, hdc⟩ := ih sc z Result.progress hwf' (by decide) h'
      exact ⟨d, List.mem_cons_of_mem _ hd, hdc⟩

theorem applyAux_conflict_of_member {slots : Nat} (cs : List Constraint) :
    ∀ (z : List Truth) (r : Result), (∀ c ∈ cs, c.WF slots) →
      (∃ c ∈ cs, (c.Evaluate z).1 = Result.conflict) →
      (Puzzle.applyAux cs z r).1 = Result.conflict := by
  induction cs with
  | nil =>
    intro z r _ hconf
    obtain ⟨c, hc, _⟩ := hconf
    cases hc
  | cons d rest ih =>
    intro z r hwf hconf
    obtain ⟨c, hc, hcf⟩ := hconf
    have hwf' : ∀ e ∈ rest, e.WF slots :=
      fun e he => hwf e (List.mem_cons_of_mem _ he)
    rcases hd : d.Evaluate z with ⟨rd, sd⟩
    unfold Puzzle.applyAux
    rw [hd]
    cases rd
    · rfl
    · show (Puzzle.applyAux rest sd r).1 = Result.conflict
      have hsd : sd = z := evaluate_noChange hd
      subst hsd
      rcases List.mem_cons.1 hc with hcd | hcr
      · subst hcd
        rw [hd] at hcf
        simp at hcf
      · exact ih _ r hwf' ⟨c, hcr, hcf⟩
    · show (Puzzle.applyAux rest sd Result.progress).1 = Result.conflict
      rcases List.mem_cons.1 hc with hcd | hcr
      · subst hcd
        rw [hd] at hcf
        simp at hcf
      · have hsz : sle z sd := by
          have hs := evaluate_sle d z
          rw [hd] at hs
          exact hs
        exact ih sd Result.progress hwf'
          ⟨c, hcr, evaluate_mono_conflict (hwf c hc) hsz hcf⟩

theorem propagateF_conflict_pass {fuel : Nat} {cs : List Constraint}
    {s z : List Truth}
    (h : Puzzle.propagateF fuel cs s = some (Result.conflict, z)) :
    ∃ w, Puzzle.ApplyConstraints cs w = (Result.conflict, z) := by
  induction fuel generalizing s with
  | zero => cases h
  | succ f ih =>
    rcases hap : Puzzle.ApplyConstraints cs s with ⟨ra, sa⟩
    unfold Puzzle.propagateF at h
    rw [hap] at h
    cases ra
    · have h' : (some (Result.conflict, sa) :
          Option (Result × List Truth)) = some (Result.conflict, z) := h
      injection h' with h1
      injection h1 with _ h2
      exact ⟨s, by rw [hap, h2]⟩
    · have h' : (some (Result.noChange, sa) :
          Option (Result × List Truth)) = some (Result.conflict, z) := h
      injection h' with h1
      injection h1 with h2 _
      cases h2
    · exact ih h

theorem IsFix_perm {cs cs' : List Constraint} (hperm : cs.Perm cs')
    {z : List Truth} (h : IsFix cs z) : IsFix cs' z :=
  fun c hc => h c (hperm.mem_iff.2 hc)

/-- Confluence of propagation-to-fixpoint: two permutations of the same
well-formed collection agree on whether propagation ends in `CONFLICT`, and
when it does not, they reach the same fixpoint state. -/
theorem propagate_confluent {slots : Nat} {cs cs' : List Constraint}
    (hperm : cs.Perm cs') (hwf : ∀ c ∈ cs, c.WF slots)
    {s : List Truth} (hs : s.length = slots) {f1 f2 : Nat}
    {r r' : Result} {u u' : List Truth}
    (h1 : Puzzle.propagateF f1 cs s = some (r, u))
    (h2 : Puzzle.propagateF f2 cs' s = some (r', u')) :
    (r = Result.conflict ↔ r' = Result.conflict) ∧
    (r ≠ Result.conflict → u = u') := by
  have hwf' : ∀ c ∈ cs', c.WF slots := fun c hc => hwf c (hperm.mem_iff.2 hc)
  have hnp1 := Puzzle.propagateF_not_progress h1
  have hnp2 := Puzzle.propagateF_not_progress h2
  by_cases hr : r = Result.conflict
  · subst hr
    have hrc' : r' = Result.conflict := by
      by_contra hrc'
      -- the cs' run would end at a fixpoint, bounding the cs run away from conflict
      have hr' : r' = Result.noChange := by
        cases r'
        · exact absurd rfl hrc'
        · rfl
        · exact absurd rfl hnp2
      subst hr'
      have hfix' : IsFix cs' u' := by
        intro c hc
        exact (Puzzle.propagateF_noChange_fix h2).2 c hc
      have hfix : IsFix cs u' := IsFix_perm hperm.symm hfix'
      have hsle : sle s u' := (Puzzle.propagateF_sle h2).1
      have hb := propagateF_bound hwf hs hsle hfix h1
      exact hb.1 rfl
    exact ⟨by simp [hrc'], fun h => absurd rfl h⟩
  · have hr0 : r = Result.noChange := by
      cases r
      · exact absurd rfl hr
      · rfl
      · exact absurd rfl hnp1
    subst hr0
    have hfix1 : IsFix cs u := fun c hc => (Puzzle.propagateF_noChange_fix h1).2 c hc
    have hsle1 : sle s u := (Puzzle.propagateF_sle h1).1
    have hbound2 := propagateF_bound hwf' hs hsle1 (IsFix_perm hperm hfix1) h2
    have hr' : r' = Result.noChange := by
      cases r'
      · exact absurd rfl hbound2.1
      · rfl
      · exact absurd rfl hnp2
    subst hr'
    have hfix2 : IsFix cs' u' := fun c hc => (Puzzle.propagateF_noChange_fix h2).2 c hc
    have hsle2 : sle s u' := (Puzzle.propagateF_sle h2).1
    have hbound1 := propagateF_bound hwf hs hsle2 (IsFix_perm hperm.symm hfix2) h1
    refine ⟨by simp, fun _ => sle_antisymm hbound1.2 hbound2.2⟩

theorem solveF_perm {slots : Nat} {cs cs' : List Constraint}
    (hperm : cs.Perm cs') (hwf : ∀ c ∈ cs, c.WF slots) :
    ∀ (fuel : Nat) (stack : List (List Truth)) (sols : List (List Truth)),
      (∀ c ∈ stack, c.length = slots) →
      Puzzle.solveF fuel cs stack sols = Puzzle.solveF fuel cs' stack sols := by
  have hwf' : ∀ c ∈ cs', c.WF slots := fun c hc => hwf c (hperm.mem_iff.2 hc)
  intro fuel
  induction fuel with
  | zero => intro stack sols _; rfl
  | succ f ih =>
    intro stack sols hlen
    cases stack with
    | nil => rfl
    | cons cand rest =>
      have hcl : cand.length = slots := hlen cand (List.mem_cons_self _ _)
      obtain ⟨r, u, h1⟩ := Puzzle.propagateF_isSome hwf hcl
        (show maybeCount cand < Puzzle.propFuel cand by
          unfold Puzzle.propFuel; omega)
      obtain ⟨r', u', h2⟩ := Puzzle.propagateF_isSome hwf' hcl
        (show maybeCount cand < Puzzle.propFuel cand by
          unfold Puzzle.propFuel; omega)
      have hconf := propagate_confluent hperm hwf hcl h1 h2
      have hrl : ∀ c ∈ rest, c.length = slots :=
        fun c hc => hlen c (List.mem_cons_of_mem _ hc)
      unfold Puzzle.solveF
      rw [h1, h2]
      by_cases hrc : r = Result.conflict
      · have hrc' : r' = Result.conflict := hconf.1.1 hrc
        subst hrc; subst hrc'
        exact ih rest sols hrl
      · have hrc' : r' ≠ Result.conflict := fun hh => hrc (hconf.1.2 hh)
        have hu : u = u' := hconf.2 hrc
        subst hu
        have hr0 : r = Result.noChange := by
          cases r
          · exact absurd rfl hrc
          · rfl
          · exact absurd rfl (Puzzle.propagateF_not_progress h1)
        have hr0' : r' = Result.noChange := by
          cases r'
          · exact absurd rfl hrc'
          · rfl
          · exact absurd rfl (Puzzle.propagateF_not_progress h2)
        subst hr0; subst hr0'
        have hul : u.length = slots := by
          rw [(Puzzle.propagateF_sle h1).2, hcl]
        show
          (if Solution.FirstMaybe u = u.length then
            Puzzle.solveF f cs rest (sols ++ [u])
          else Puzzle.solveF f cs
            ((Solution.Set u (Solution.FirstMaybe u) Truth.yes).2 ::
             (Solution.Set u (Solution.FirstMaybe u) Truth.no).2 :: rest) sols) =
          (if Solution.FirstMaybe u = u.length then
            Puzzle.solveF f cs' rest (sols ++ [u])
          else Puzzle.solveF f cs'
            ((Solution.Set u (Solution.FirstMaybe u) Truth.yes).2 ::
             (Solution.Set u (Solution.FirstMaybe u) Truth.no).2 :: rest) sols)
        by_cases hfm : Solution.FirstMaybe u = u.length
        · rw [if_pos hfm, if_pos hfm]
          exact ih rest (sols ++ [u]) hrl
        · rw [if_neg hfm, if_neg hfm]
          refine ih _ sols ?_
          intro c hc
          rcases List.mem_cons.1 hc with rfl | hc2
          · rw [length_Set_snd, hul]
          · rcases List.mem_cons.1 hc2 with rfl | hc3
            · rw [length_Set_snd, hul]
            · exact hrl c hc3

/-- The whole search is order independent: permuting the constraint
collection leaves `Puzzle::Solve`'s output unchanged (even as a list). -/
theorem Solve_perm {slots : Nat} {cs cs' : List Constraint}
    (hperm : cs.Perm cs') (hwf : ∀ c ∈ cs, c.WF slots) :
    Puzzle.Solve slots cs = Puzzle.Solve slots cs' := by
  unfold Puzzle.Solve
  refine solveF_perm hperm hwf _ _ _ ?_
  intro c hc
  rcases List.mem_cons.1 hc with rfl | hc2
  · exact List.length_replicate _ _
  · simp at hc2

/-! ### Equivalence of the `zebra.cpp` inline solver with the library -/

namespace Zebra

theorem Set_eq (s : List Truth) (i : Nat) (v : Truth) :
    Zebra.Set s i v = Solution.Set s i v := rfl

theorem Count_eq (s : List Truth) (idx : List Nat) (v : Truth) :
    Zebra.Count s idx v = Solution.Count s idx v := by
  induction idx with
  | nil => rfl
  | cons i rest ih =>
    show (if tget s i = v then 1 else 0) + Zebra.Count s rest v =
      (if tget s i = v then 1 else 0) + Solution.Count s rest v
    rw [ih]

theorem FirstMaybe_eq (s : List Truth) :
    Zebra.FirstMaybe s = Solution.FirstMaybe s := rfl

end Zebra

theorem OneIfAny_equiv (one : Nat) (anyIdx : List Nat) (s : List Truth) :
    Zebra.OneIfAnyEvaluate one anyIdx s =
      (Constraint.IfPThenOneOrMoreOfQ one anyIdx).Evaluate s := by
  have htri := Count_tri s anyIdx
  rw [IfPOne_eval]
  unfold Zebra.OneIfAnyEvaluate
  simp only [Zebra.Count_eq, Zebra.Set_eq]
  by_cases hN : Solution.Count s anyIdx Truth.no = anyIdx.length
  · have hM : Solution.Count s anyIdx Truth.maybe = 0 := by omega
    have hY : Solution.Count s anyIdx Truth.yes = 0 := by omega
    rw [if_pos hN]
    cases hone : tget s one with
    | yes =>
      rw [if_pos ⟨rfl, hY, hM⟩]
      exact Set_conflict (by rw [hone]; decide) (by rw [hone]; decide)
    | maybe =>
      rw [if_neg (by simp), if_neg (by simp), if_pos ⟨rfl, hY, hM⟩]
    | no =>
      rw [if_neg (by simp [hone]), if_neg (by simp [hone]),
        if_neg (by simp [hone])]
      exact Set_eq_val hone
  · rw [if_neg hN]
    by_cases hone : tget s one = Truth.yes
    · rw [if_pos hone]
      by_cases hcond : Solution.Count s anyIdx Truth.maybe = 1 ∧
          Solution.Count s anyIdx Truth.no + 1 = anyIdx.length
      · have hY : Solution.Count s anyIdx Truth.yes = 0 := by
          have h1 := hcond.1
          have h2 := hcond.2
          omega
        rw [if_pos hcond,
          if_neg (fun hc => by have h1 := hc.2.2; have h2 := hcond.1; omega),
          if_pos ⟨hone, hY, hcond.1⟩]
      · rw [if_neg hcond]
        have h1 : ¬(tget s one = Truth.yes ∧
            Solution.Count s anyIdx Truth.yes = 0 ∧
            Solution.Count s anyIdx Truth.maybe = 0) := by
          rintro ⟨_, hY, hM⟩
          omega
        have h2 : ¬(tget s one = Truth.yes ∧
            Solution.Count s anyIdx Truth.yes = 0 ∧
            Solution.Count s anyIdx Truth.maybe = 1) := by
          rintro ⟨_, hY, hM⟩
          exact hcond ⟨hM, by omega⟩
        have h3 : ¬(tget s one = Truth.maybe ∧
            Solution.Count s anyIdx Truth.yes = 0 ∧
            Solution.Count s anyIdx Truth.maybe = 0) := by
          rintro ⟨hm, _, _⟩
          rw [hone] at hm
          cases hm
        rw [if_neg h1, if_neg h2, if_neg h3]
    · rw [if_neg hone]
      have h1 : ¬(tget s one = Truth.yes ∧
          Solution.Count s anyIdx Truth.yes = 0 ∧
          Solution.Count s anyIdx Truth.maybe = 0) := fun hc => hone hc.1
      have h2 : ¬(tget s one = Truth.yes ∧
          Solution.Count s anyIdx Truth.yes = 0 ∧
          Solution.Count s anyIdx Truth.maybe = 1) := fun hc => hone hc.1
      have h3 : ¬(tget s one = Truth.maybe ∧
          Solution.Count s anyIdx Truth.yes = 0 ∧
          Solution.Count s anyIdx Truth.maybe = 0) := by
        rintro ⟨_, hY, hM⟩
        omega
      rw [if_neg h1, if_neg h2, if_neg h3]

theorem ZConstraint_Evaluate_toLib (zc : ZConstraint) (s : List Truth) :
    zc.Evaluate s = zc.toLib.Evaluate s := by
  cases zc with
  | Fixed i v => rfl
  | Identical a b => rfl
  | ExactlyNOf n idx v =>
    show ZConstraint.Evaluate (ZConstraint.ExactlyNOf n idx v) s =
      (Constraint.ExactlyNOf n idx v).Evaluate s
    rw [ExactlyN_eval]
    unfold ZConstraint.Evaluate
    simp only [Zebra.Count_eq]
  | OneIfAny one anyIdx => exact OneIfAny_equiv one anyIdx s

theorem Zebra_applyAux_eq (cs : List ZConstraint) (s : List Truth) (r : Result) :
    Zebra.applyAux cs s r =
      Puzzle.applyAux (cs.map ZConstraint.toLib) s r := by
  induction cs generalizing s r with
  | nil => rfl
  | cons c rest ih =>
    simp only [List.map_cons]
    unfold Zebra.applyAux Puzzle.applyAux
    rcases he : c.toLib.Evaluate s with ⟨rc, sc⟩
    rw [ZConstraint_Evaluate_toLib, he]
    cases rc
    · rfl
    · exact ih sc r
    · exact ih sc Result.progress

theorem Zebra_ApplyConstraints_eq (cs : List ZConstraint) (s : List Truth) :
    Zebra.ApplyConstraints cs s =
      Puzzle.ApplyConstraints (cs.map ZConstraint.toLib) s :=
  Zebra_applyAux_eq cs s Result.noChange

theorem Zebra_propagateF_eq (fuel : Nat) (cs : List ZConstraint) (s : List Truth) :
    Zebra.propagateF fuel cs s =
      Puzzle.propagateF fuel (cs.map ZConstraint.toLib) s := by
  induction fuel generalizing s with
  | zero => rfl
  | succ f ih =>
    unfold Zebra.propagateF Puzzle.propagateF
    rw [Zebra_ApplyConstraints_eq]
    rcases hap : Puzzle.ApplyConstraints (cs.map ZConstraint.toLib) s with ⟨ra, sa⟩
    cases ra
    · rfl
    · rfl
    · exact ih sa

theorem Zebra_solveF_eq (fuel : Nat) (cs : List ZConstraint)
    (stack sols : List (List Truth)) :
    Zebra.solveF fuel cs stack sols =
      Puzzle.solveF fuel (cs.map ZConstraint.toLib) stack sols := by
  induction fuel generalizing stack sols with
  | zero => rfl
  | succ f ih =>
    cases stack with
    | nil => rfl
    | cons cand rest =>
      unfold Zebra.solveF Puzzle.solveF
      rw [Zebra_propagateF_eq]
      rcases hp : Puzzle.propagateF (Puzzle.propFuel cand)
          (cs.map ZConstraint.toLib) cand with _ | ⟨r, u⟩
      · rfl
      · cases r
        · exact ih rest sols
        · show (if Zebra.FirstMaybe u = u.length then Zebra.solveF f cs rest (sols ++ [u])
              else Zebra.solveF f cs
                ((Zebra.Set u (Zebra.FirstMaybe u) Truth.yes).2 ::
                 (Zebra.Set u (Zebra.FirstMaybe u) Truth.no).2 :: rest) sols) =
            (if Solution.FirstMaybe u = u.length then
              Puzzle.solveF f (cs.map ZConstraint.toLib) rest (sols ++ [u])
            else Puzzle.solveF f (cs.map ZConstraint.toLib)
              ((Solution.Set u (Solution.FirstMaybe u) Truth.yes).2 ::
               (Solution.Set u (Solution.FirstMaybe u) Truth.no).2 :: rest) sols)
          rw [Zebra.FirstMaybe_eq, Zebra.Set_eq, Zebra.Set_eq]
          by_cases hfm : Solution.FirstMaybe u = u.length
          · rw [if_pos hfm, if_pos hfm]
            exact ih rest (sols ++ [u])
          · rw [if_neg hfm, if_neg hfm]
            exact ih _ sols
        · show (if Zebra.FirstMaybe u = u.length then Zebra.solveF f cs rest (sols ++ [u])
              else Zebra.solveF f cs
                ((Zebra.Set u (Zebra.FirstMaybe u) Truth.yes).2 ::
                 (Zebra.Set u (Zebra.FirstMaybe u) Truth.no).2 :: rest) sols) =
            (if Solution.FirstMaybe u = u.length then
              Puzzle.solveF f (cs.map ZConstraint.toLib) rest (sols ++ [u])
            else Puzzle.solveF f (cs.map ZConstraint.toLib)
              ((Solution.Set u (Solution.FirstMaybe u) Truth.yes).2 ::
               (Solution.Set u (Solution.FirstMaybe u) Truth.no).2 :: rest) sols)
          rw [Zebra.FirstMaybe_eq, Zebra.Set_eq, Zebra.Set_eq]
          by_cases hfm : Solution.FirstMaybe u = u.length
          · rw [if_pos hfm, if_pos hfm]
            exact ih rest (sols ++ [u])
          · rw [if_neg hfm, if_neg hfm]
            exact ih _ sols

theorem Zebra_Solve_eq (slots : Nat) (cs : List ZConstraint) :
    Zebra.Solve slots cs = Puzzle.Solve slots (cs.map ZConstraint.toLib) :=
  Zebra_solveF_eq _ cs _ _

/-! ### Shared helper lemmas for the claim theorems -/

theorem tget_applySets_definite {s : List Truth} {i : Nat} {w : Truth}
    (hw : w ≠ Truth.maybe) (hs : tget s i = w) (ops : List (Nat × Truth)) :
    tget (applySets s ops) i = w := by
  induction ops generalizing s with
  | nil => exact hs
  | cons op rest ih =>
    unfold applySets
    refine ih ?_
    rw [tget_Set_snd_of_ne_maybe (by rw [hs]; exact hw) op.1 op.2]
    exact hs

theorem usub_exact {n m : Nat} (hn : n < 2 ^ 64) (hm : m ≤ n) :
    usub n m = n - m := by
  unfold usub
  omega

theorem ExactlyN_conflict_iff {n : Nat} (hn : n < 2 ^ 64) (idx : List Nat)
    (v : Truth) (s : List Truth) :
    ((Constraint.ExactlyNOf n idx v).Evaluate s).1 = Result.conflict ↔
      (Solution.Count s idx v > n ∨
       Solution.Count s idx v + Solution.Count s idx Truth.maybe < n) := by
  constructor
  · intro hc
    by_cases h2 : Solution.Count s idx v > n
    · exact Or.inl h2
    · right
      rw [ExactlyN_eval] at hc
      by_cases h1 : Solution.Count s idx Truth.maybe <
          usub n (Solution.Count s idx v)
      · rw [usub_exact hn (by omega)] at h1
        omega
      · exfalso
        rw [if_neg h1, if_neg h2] at hc
        split at hc
        · split at hc
          · simp at hc
          · split at hc
            · simp at hc
            · simp at hc
        · simp at hc
  · intro hc
    rw [ExactlyN_eval]
    rcases hc with hc | hc
    · by_cases h1 : Solution.Count s idx Truth.maybe <
          usub n (Solution.Count s idx v)
      · rw [if_pos h1]
      · rw [if_neg h1, if_pos hc]
    · have hms : Solution.Count s idx v ≤ n := by omega
      rw [if_pos (by rw [usub_exact hn hms]; omega)]

theorem ExactlyN_conflict_snd (n : Nat) (idx : List Nat) (v : Truth)
    (s : List Truth)
    (h : ((Constraint.ExactlyNOf n idx v).Evaluate s).1 = Result.conflict) :
    ((Constraint.ExactlyNOf n idx v).Evaluate s).2 = s := by
  rw [ExactlyN_eval] at h ⊢
  by_cases h1 : Solution.Count s idx Truth.maybe <
      usub n (Solution.Count s idx v)
  · rw [if_pos h1]
  · rw [if_neg h1] at h ⊢
    by_cases h2 : Solution.Count s idx v > n
    · rw [if_pos h2]
    · rw [if_neg h2] at h ⊢
      exfalso
      split at h
      · split at h
        · simp at h
        · split at h
          · simp at h
          · simp at h
      · simp at h

/-! ### The claims -/

/-- C1: the `Solution::Set` contract.  For an in-range index and a definite
value: if the slot already holds the value, `Set` returns `NO_CHANGE` and
leaves every slot unchanged; if it holds the opposite definite value, `Set`
returns `CONFLICT` and leaves every slot unchanged; if it holds `MAYBE`,
`Set` returns `PROGRESS`, the slot afterwards holds the value, and every
other slot is unchanged.  Consequently, under any sequence of `Set` calls a
slot that has become definite never changes again. -/
theorem C1_set_contract (s : List Truth) (i : Nat) (v : Truth)
    (hi : i < s.length) (hv : v ≠ Truth.maybe) :
    (tget s i = v → Solution.Set s i v = (Result.noChange, s)) ∧
    (tget s i = tnot v → Solution.Set s i v = (Result.conflict, s)) ∧
    (tget s i = Truth.maybe →
      Solution.Set s i v = (Result.progress, s.set i v) ∧
      tget (s.set i v) i = v ∧
      ∀ j, j ≠ i → tget (s.set i v) j = tget s j) ∧
    (∀ ops : List (Nat × Truth), ∀ w : Truth, w ≠ Truth.maybe →
      tget s i = w → tget (applySets s ops) i = w) := by
  refine ⟨fun h => Set_eq_val h, fun h => ?_, fun h => ?_,
    fun ops w hw hs => tget_applySets_definite hw hs ops⟩
  · refine Set_conflict ?_ ?_
    · rw [h]; exact tnot_ne_self hv
    · rw [h]; exact tnot_ne_maybe hv
  · exact ⟨Set_progress h hv, tget_set_eq hi v,
      fun j hj => tget_set_ne (fun hh => hj hh.symm) v⟩

theorem C1_set_contract_witness :
    (1 < ([Truth.no, Truth.maybe] : List Truth).length) ∧
    (Truth.yes ≠ Truth.maybe) ∧
    ((tget [Truth.no, Truth.maybe] 1 = Truth.yes →
        Solution.Set [Truth.no, Truth.maybe] 1 Truth.yes =
          (Result.noChange, [Truth.no, Truth.maybe])) ∧
      (tget [Truth.no, Truth.maybe] 1 = tnot Truth.yes →
        Solution.Set [Truth.no, Truth.maybe] 1 Truth.yes =
          (Result.conflict, [Truth.no, Truth.maybe])) ∧
      (tget [Truth.no, Truth.maybe] 1 = Truth.maybe →
        Solution.Set [Truth.no, Truth.maybe] 1 Truth.yes =
          (Result.progress, [Truth.no, Truth.maybe].set 1 Truth.yes) ∧
        tget ([Truth.no, Truth.maybe].set 1 Truth.yes) 1 = Truth.yes ∧
        ∀ j, j ≠ 1 → tget ([Truth.no, Truth.maybe].set 1 Truth.yes) j =
          tget [Truth.no, Truth.maybe] j) ∧
      (∀ ops : List (Nat × Truth), ∀ w : Truth, w ≠ Truth.maybe →
        tget [Truth.no, Truth.maybe] 1 = w →
        tget (applySets [Truth.no, Truth.maybe] ops) 1 = w)) :=
  ⟨by decide, by decide,
    C1_set_contract [Truth.no, Truth.maybe] 1 Truth.yes (by decide) (by decide)⟩

/-- C3: for every slot count and well-formed collection from the standard
catalog (all indices in range, `Fixed`/`ExactlyN` values definite), `Solve`
terminates with a result: every `PROGRESS` pass of `ApplyConstraints` turns
at least one `MAYBE` slot definite (strictly decreasing `maybeCount`), and
the work-list loop consumes a finite measure, so the modeled fuel bound
suffices and the loop returns. -/
theorem C3_solve_terminates (slots : Nat) (cs : List Constraint)
    (hwf : ∀ c ∈ cs, c.WF slots) :
    (∀ s s1 : List Truth, s.length = slots →
      Puzzle.ApplyConstraints cs s = (Result.progress, s1) →
      maybeCount s1 < maybeCount s) ∧
    ∃ out, Puzzle.Solve slots cs = some out :=
  ⟨fun _ _ hs h => Puzzle.ApplyConstraints_progress_dec hwf hs h,
   Puzzle.Solve_isSome hwf⟩

theorem C3_solve_terminates_witness :
    (∀ c ∈ [Constraint.Fixed 0 Truth.yes,
        Constraint.ExactlyNOf 1 [0, 1] Truth.yes], c.WF 2) ∧
    ((∀ s s1 : List Truth, s.length = 2 →
      Puzzle.ApplyConstraints [Constraint.Fixed 0 Truth.yes,
        Constraint.ExactlyNOf 1 [0, 1] Truth.yes] s = (Result.progress, s1) →
      maybeCount s1 < maybeCount s) ∧
    ∃ out, Puzzle.Solve 2 [Constraint.Fixed 0 Truth.yes,
        Constraint.ExactlyNOf 1 [0, 1] Truth.yes] = some out) :=
  ⟨by decide,
   C3_solve_terminates 2 [Constraint.Fixed 0 Truth.yes,
     Constraint.ExactlyNOf 1 [0, 1] Truth.yes] (by decide)⟩

/-- C4: the 4-slot engine with constraints `Fixed(0, YES)`,
`Identical([0], [1])` and `ExactlyN(1, [2, 3], YES)` yields exactly two
solutions, and as a set they are `{YES, YES, YES, NO}` and
`{YES, YES, NO, YES}` (in this discovery order). -/
theorem C4_scenario_A :
    Puzzle.Solve 4 [Constraint.Fixed 0 Truth.yes, Constraint.Identical [0] [1],
        Constraint.ExactlyNOf 1 [2, 3] Truth.yes] =
      some [[Truth.yes, Truth.yes, Truth.yes, Truth.no],
            [Truth.yes, Truth.yes, Truth.no, Truth.yes]] ∧
    ([[Truth.yes, Truth.yes, Truth.yes, Truth.no],
      [Truth.yes, Truth.yes, Truth.no, Truth.yes]] :
        List (List Truth)).length = 2 ∧
    ([Truth.yes, Truth.yes, Truth.yes, Truth.no] : List Truth) ≠
      [Truth.yes, Truth.yes, Truth.no, Truth.yes] := by
  decide

/-- C10: the solver duplicated inline in `zebra.cpp` is extensionally equal
to the library solver: `Set`, `FirstMaybe`, `Count`, `ApplyConstraints` and
`Solve` compute the same results as their `solver.cpp` counterparts on every
input (with `zebra.cpp` constraints mapped to their library counterparts),
and `OneIfAny(one, any)` returns the same outcome and performs the same
state mutation as the library's `IfPThenOneOrMoreOfQ(one, any)` on every
state. -/
theorem C10_zebra_refines_library :
    (∀ (s : List Truth) (i : Nat) (v : Truth),
      Zebra.Set s i v = Solution.Set s i v) ∧
    (∀ s : List Truth, Zebra.FirstMaybe s = Solution.FirstMaybe s) ∧
    (∀ (s : List Truth) (idx : List Nat) (v : Truth),
      Zebra.Count s idx v = Solution.Count s idx v) ∧
    (∀ (cs : List ZConstraint) (s : List Truth),
      Zebra.ApplyConstraints cs s =
        Puzzle.ApplyConstraints (cs.map ZConstraint.toLib) s) ∧
    (∀ (slots : Nat) (cs : List ZConstraint),
      Zebra.Solve slots cs = Puzzle.Solve slots (cs.map ZConstraint.toLib)) ∧
    (∀ (one : Nat) (anyIdx : List Nat) (s : List Truth),
      Zebra.OneIfAnyEvaluate one anyIdx s =
        (Constraint.IfPThenOneOrMoreOfQ one anyIdx).Evaluate s) :=
  ⟨Zebra.Set_eq, Zebra.FirstMaybe_eq, Zebra.Count_eq,
   Zebra_ApplyConstraints_eq, Zebra_Solve_eq, OneIfAny_equiv⟩

/-- C5: the `Implication` (`IfPThenQ`) contract.  With in-range indices:
`P = YES, Q = NO` gives `CONFLICT` with the state unchanged; `P = YES,
Q = MAYBE` sets `Q` to `YES` and returns `PROGRESS`; `Q = NO, P = MAYBE`
sets `P` to `NO` and returns `PROGRESS`; in every other case — in
particular whenever `P = NO` — it returns `NO_CHANGE` and mutates
nothing (the converse is never applied). -/
theorem C5_implication_contract (p q : Nat) (s : List Truth)
    (hp : p < s.length) (hq : q < s.length) :
    (tget s p = Truth.yes → tget s q = Truth.no →
      (Constraint.IfPThenQ p q).Evaluate s = (Result.conflict, s)) ∧
    (tget s p = Truth.yes → tget s q = Truth.maybe →
      (Constraint.IfPThenQ p q).Evaluate s =
        (Result.progress, s.set q Truth.yes) ∧
      tget (s.set q Truth.yes) q = Truth.yes ∧
      ∀ j, j ≠ q → tget (s.set q Truth.yes) j = tget s j) ∧
    (tget s q = Truth.no → tget s p = Truth.maybe →
      (Constraint.IfPThenQ p q).Evaluate s =
        (Result.progress, s.set p Truth.no) ∧
      tget (s.set p Truth.no) p = Truth.no ∧
      ∀ j, j ≠ p → tget (s.set p Truth.no) j = tget s j) ∧
    (¬(tget s p = Truth.yes ∧ tget s q = Truth.no) →
     ¬(tget s p = Truth.yes ∧ tget s q = Truth.maybe) →
     ¬(tget s q = Truth.no ∧ tget s p = Truth.maybe) →
      (Constraint.IfPThenQ p q).Evaluate s = (Result.noChange, s)) ∧
    (tget s p = Truth.no →
      (Constraint.IfPThenQ p q).Evaluate s = (Result.noChange, s)) := by
  refine ⟨fun h1 h2 => ?_, fun h1 h2 => ?_, fun h1 h2 => ?_,
    fun h1 h2 h3 => ?_, fun h => ?_⟩
  · simp only [Constraint.Evaluate]
    rw [if_pos ⟨h1, h2⟩]
  · simp only [Constraint.Evaluate]
    rw [if_neg (by simp [h2]), if_pos ⟨h1, h2⟩, Set_progress h2 (by decide)]
    exact ⟨rfl, tget_set_eq hq Truth.yes,
      fun j hj => tget_set_ne (fun hh => hj hh.symm) Truth.yes⟩
  · simp only [Constraint.Evaluate]
    rw [if_neg (by simp [h2]), if_neg (by simp [h2]), if_pos ⟨h1, h2⟩,
      Set_progress h2 (by decide)]
    exact ⟨rfl, tget_set_eq hp Truth.no,
      fun j hj => tget_set_ne (fun hh => hj hh.symm) Truth.no⟩
  · simp only [Constraint.Evaluate]
    rw [if_neg h1, if_neg h2, if_neg h3]
  · simp only [Constraint.Evaluate]
    rw [if_neg (by simp [h]), if_neg (by simp [h]), if_neg (by simp [h])]

theorem C5_implication_contract_witness :
    (0 < ([Truth.yes, Truth.maybe] : List Truth).length) ∧
    (1 < ([Truth.yes, Truth.maybe] : List Truth).length) ∧
    ((tget [Truth.yes, Truth.maybe] 0 = Truth.yes →
        tget [Truth.yes, Truth.maybe] 1 = Truth.no →
        (Constraint.IfPThenQ 0 1).Evaluate [Truth.yes, Truth.maybe] =
          (Result.conflict, [Truth.yes, Truth.maybe])) ∧
      (tget [Truth.yes, Truth.maybe] 0 = Truth.yes →
        tget [Truth.yes, Truth.maybe] 1 = Truth.maybe →
        (Constraint.IfPThenQ 0 1).Evaluate [Truth.yes, Truth.maybe] =
          (Result.progress, [Truth.yes, Truth.maybe].set 1 Truth.yes) ∧
        tget ([Truth.yes, Truth.maybe].set 1 Truth.yes) 1 = Truth.yes ∧
        ∀ j, j ≠ 1 → tget ([Truth.yes, Truth.maybe].set 1 Truth.yes) j =
          tget [Truth.yes, Truth.maybe] j) ∧
      (tget [Truth.yes, Truth.maybe] 1 = Truth.no →
        tget [Truth.yes, Truth.maybe] 0 = Truth.maybe →
        (Constraint.IfPThenQ 0 1).Evaluate [Truth.yes, Truth.maybe] =
          (Result.progress, [Truth.yes, Truth.maybe].set 0 Truth.no) ∧
        tget ([Truth.yes, Truth.maybe].set 0 Truth.no) 0 = Truth.no ∧
        ∀ j, j ≠ 0 → tget ([Truth.yes, Truth.maybe].set 0 Truth.no) j =
          tget [Truth.yes, Truth.maybe] j) ∧
      (¬(tget [Truth.yes, Truth.maybe] 0 = Truth.yes ∧
          tget [Truth.yes, Truth.maybe] 1 = Truth.no) →
       ¬(tget [Truth.yes, Truth.maybe] 0 = Truth.yes ∧
          tget [Truth.yes, Truth.maybe] 1 = Truth.maybe) →
       ¬(tget [Truth.yes, Truth.maybe] 1 = Truth.no ∧
          tget [Truth.yes, Truth.maybe] 0 = Truth.maybe) →
        (Constraint.IfPThenQ 0 1).Evaluate [Truth.yes, Truth.maybe] =
          (Result.noChange, [Truth.yes, Truth.maybe])) ∧
      (tget [Truth.yes, Truth.maybe] 0 = Truth.no →
        (Constraint.IfPThenQ 0 1).Evaluate [Truth.yes, Truth.maybe] =
          (Result.noChange, [Truth.yes, Truth.maybe]))) :=
  ⟨by decide, by decide,
   C5_implication_contract 0 1 [Truth.yes, Truth.maybe] (by decide) (by decide)⟩

/-- C6: the `ForcedDisjunction` (`IfPThenOneOrMoreOfQ`) contract.  With
in-range indices: if `P = YES` and no member of `Q` is `YES`, then with no
member `MAYBE` the result is `CONFLICT` with the state unchanged, and with
exactly one member `MAYBE` that unique member is set to `YES` with
`PROGRESS`; if `P = MAYBE` and every member of `Q` is `NO`, `P` is set to
`NO` with `PROGRESS`; in every other case the result is `NO_CHANGE` with
nothing mutated. -/
theorem C6_forced_disjunction_contract (p : Nat) (q : List Nat)
    (s : List Truth) (hp : p < s.length) (hq : ∀ i ∈ q, i < s.length) :
    (tget s p = Truth.yes → (∀ j ∈ q, tget s j ≠ Truth.yes) →
      ((Solution.Count s q Truth.maybe = 0 →
        (Constraint.IfPThenOneOrMoreOfQ p q).Evaluate s =
          (Result.conflict, s)) ∧
       (Solution.Count s q Truth.maybe = 1 →
        ∃ i ∈ q, tget s i = Truth.maybe ∧
          (∀ k ∈ q, tget s k = Truth.maybe → k = i) ∧
          (Constraint.IfPThenOneOrMoreOfQ p q).Evaluate s =
            (Result.progress, s.set i Truth.yes) ∧
          tget (s.set i Truth.yes) i = Truth.yes ∧
          ∀ j, j ≠ i → tget (s.set i Truth.yes) j = tget s j))) ∧
    (tget s p = Truth.maybe → (∀ j ∈ q, tget s j = Truth.no) →
      (Constraint.IfPThenOneOrMoreOfQ p q).Evaluate s =
        (Result.progress, s.set p Truth.no) ∧
      tget (s.set p Truth.no) p = Truth.no ∧
      ∀ j, j ≠ p → tget (s.set p Truth.no) j = tget s j) ∧
    (¬(tget s p = Truth.yes ∧ Solution.Count s q Truth.yes = 0 ∧
        Solution.Count s q Truth.maybe = 0) →
     ¬(tget s p = Truth.yes ∧ Solution.Count s q Truth.yes = 0 ∧
        Solution.Count s q Truth.maybe = 1) →
     ¬(tget s p = Truth.maybe ∧ Solution.Count s q Truth.yes = 0 ∧
        Solution.Count s q Truth.maybe = 0) →
      (Constraint.IfPThenOneOrMoreOfQ p q).Evaluate s =
        (Result.noChange, s)) := by
  refine ⟨fun hpy hnoy => ⟨fun hm0 => ?_, fun hm1 => ?_⟩,
    fun hpm hall => ?_, fun h1 h2 h3 => ?_⟩
  · have hy0 : Solution.Count s q Truth.yes = 0 := Count_eq_zero.2 hnoy
    rw [IfPOne_eval, if_pos ⟨hpy, hy0, hm0⟩]
  · have hy0 : Solution.Count s q Truth.yes = 0 := Count_eq_zero.2 hnoy
    have hex : ∃ i ∈ q, tget s i = Truth.maybe := Count_pos.1 (by omega)
    rcases hex with ⟨i, hiq, him⟩
    have huniq : ∀ k ∈ q, tget s k = Truth.maybe → k = i :=
      fun k hk hkm => Count_one_unique hm1 k hk hkm i hiq him
    have hfind : q.find? (fun j => tget s j = Truth.maybe) = some i := by
      refine find?_eq_some_of_unique hiq (by simp [him]) ?_
      intro k hk hpk
      exact huniq k hk (by simpa using hpk)
    refine ⟨i, hiq, him, huniq, ?_, tget_set_eq (hq i hiq) Truth.yes,
      fun j hj => tget_set_ne (fun hh => hj hh.symm) Truth.yes⟩
    rw [IfPOne_eval, if_neg (fun hc => by have := hc.2.2; omega),
      if_pos ⟨hpy, hy0, hm1⟩, hfind]
    show Solution.Set s i Truth.yes = (Result.progress, s.set i Truth.yes)
    rw [Set_progress him (by decide)]
  · have hy0 : Solution.Count s q Truth.yes = 0 :=
      Count_eq_zero.2 fun j hj => by rw [hall j hj]; decide
    have hm0 : Solution.Count s q Truth.maybe = 0 :=
      Count_eq_zero.2 fun j hj => by rw [hall j hj]; decide
    refine ⟨?_, tget_set_eq hp Truth.no,
      fun j hj => tget_set_ne (fun hh => hj hh.symm) Truth.no⟩
    rw [IfPOne_eval, if_neg (by simp [hpm]), if_neg (by simp [hpm]),
      if_pos ⟨hpm, hy0, hm0⟩, Set_progress hpm (by decide)]
  · rw [IfPOne_eval, if_neg h1, if_neg h2, if_neg h3]

theorem C6_forced_disjunction_contract_witness :
    (0 < ([Truth.yes, Truth.no, Truth.maybe] : List Truth).length) ∧
    (∀ i ∈ ([1, 2] : List Nat),
      i < ([Truth.yes, Truth.no, Truth.maybe] : List Truth).length) ∧
    ((tget [Truth.yes, Truth.no, Truth.maybe] 0 = Truth.yes →
      (∀ j ∈ ([1, 2] : List Nat),
        tget [Truth.yes, Truth.no, Truth.maybe] j ≠ Truth.yes) →
      ((Solution.Count [Truth.yes, Truth.no, Truth.maybe] [1, 2]
          Truth.maybe = 0 →
        (Constraint.IfPThenOneOrMoreOfQ 0 [1, 2]).Evaluate
            [Truth.yes, Truth.no, Truth.maybe] =
          (Result.conflict, [Truth.yes, Truth.no, Truth.maybe])) ∧
       (Solution.Count [Truth.yes, Truth.no, Truth.maybe] [1, 2]
          Truth.maybe = 1 →
        ∃ i ∈ ([1, 2] : List Nat),
          tget [Truth.yes, Truth.no, Truth.maybe] i = Truth.maybe ∧
          (∀ k ∈ ([1, 2] : List Nat),
            tget [Truth.yes, Truth.no, Truth.maybe] k = Truth.maybe → k = i) ∧
          (Constraint.IfPThenOneOrMoreOfQ 0 [1, 2]).Evaluate
              [Truth.yes, Truth.no, Truth.maybe] =
            (Result.progress,
              [Truth.yes, Truth.no, Truth.maybe].set i Truth.yes) ∧
          tget ([Truth.yes, Truth.no, Truth.maybe].set i Truth.yes) i =
            Truth.yes ∧
          ∀ j, j ≠ i →
            tget ([Truth.yes, Truth.no, Truth.maybe].set i Truth.yes) j =
            tget [Truth.yes, Truth.no, Truth.maybe] j))) ∧
    (tget [Truth.yes, Truth.no, Truth.maybe] 0 = Truth.maybe →
      (∀ j ∈ ([1, 2] : List Nat),
        tget [Truth.yes, Truth.no, Truth.maybe] j = Truth.no) →
      (Constraint.IfPThenOneOrMoreOfQ 0 [1, 2]).Evaluate
          [Truth.yes, Truth.no, Truth.maybe] =
        (Result.progress, [Truth.yes, Truth.no, Truth.maybe].set 0 Truth.no) ∧
      tget ([Truth.yes, Truth.no, Truth.maybe].set 0 Truth.no) 0 = Truth.no ∧
      ∀ j, j ≠ 0 →
        tget ([Truth.yes, Truth.no, Truth.maybe].set 0 Truth.no) j =
        tget [Truth.yes, Truth.no, Truth.maybe] j) ∧
    (¬(tget [Truth.yes, Truth.no, Truth.maybe] 0 = Truth.yes ∧
        Solution.Count [Truth.yes, Truth.no, Truth.maybe] [1, 2]
          Truth.yes = 0 ∧
        Solution.Count [Truth.yes, Truth.no, Truth.maybe] [1, 2]
          Truth.maybe = 0) →
     ¬(tget [Truth.yes, Truth.no, Truth.maybe] 0 = Truth.yes ∧
        Solution.Count [Truth.yes, Truth.no, Truth.maybe] [1, 2]
          Truth.yes = 0 ∧
        Solution.Count [Truth.yes, Truth.no, Truth.maybe] [1, 2]
          Truth.maybe = 1) →
     ¬(tget [Truth.yes, Truth.no, Truth.maybe] 0 = Truth.maybe ∧
        Solution.Count [Truth.yes, Truth.no, Truth.maybe] [1, 2]
          Truth.yes = 0 ∧
        Solution.Count [Truth.yes, Truth.no, Truth.maybe] [1, 2]
          Truth.maybe = 0) →
      (Constraint.IfPThenOneOrMoreOfQ 0 [1, 2]).Evaluate
          [Truth.yes, Truth.no, Truth.maybe] =
        (Result.noChange, [Truth.yes, Truth.no, Truth.maybe]))) :=
  ⟨by decide, by decide,
   C6_forced_disjunction_contract 0 [1, 2] [Truth.yes, Truth.no, Truth.maybe]
     (by decide) (by decide)⟩

/-- C2 counterexample: for `ExactlyN(1, [0], YES)` on the state `[YES]` the
counts are `matches = 1 = n` and `maybes = 0`, no conflict condition holds,
and the claim's "if matches == n ... returns PROGRESS" clause demands
`PROGRESS`; but `Evaluate` returns `NO_CHANGE` (the code only forces — and
reports `PROGRESS` — when at least one listed slot is `MAYBE`). -/
theorem C2_counterexample :
    Solution.Count [Truth.yes] [0] Truth.yes = 1 ∧
    Solution.Count [Truth.yes] [0] Truth.maybe = 0 ∧
    ¬((1 : Nat) > 1 ∨ (1 : Nat) + 0 < 1) ∧
    (Constraint.ExactlyNOf 1 [0] Truth.yes).Evaluate [Truth.yes] =
      (Result.noChange, [Truth.yes]) ∧
    ((Constraint.ExactlyNOf 1 [0] Truth.yes).Evaluate [Truth.yes]).1 ≠
      Result.progress := by
  decide

/-- C2 (amended): the `ExactlyNOf` contract, with the forcing clauses
guarded by the presence of at least one listed `MAYBE` slot (the
correction the code forces: with no listed `MAYBE`, the rule returns
`NO_CHANGE` even when `matches == n`).  For a definite value, a size_t
`n`, and in-range indices: `Evaluate` reports `CONFLICT` exactly when
`matches > n` or `matches + maybes < n` (state unchanged); otherwise with
a `MAYBE` present and `matches = n` it forces every listed `MAYBE` slot to
the opposite value with `PROGRESS`; otherwise with a `MAYBE` present,
`matches ≠ n` and `maybes = n - matches` it forces every listed `MAYBE`
slot to the value with `PROGRESS`; in every remaining case it returns
`NO_CHANGE` and mutates nothing. -/
theorem C2_exactlyN_contract (n : Nat) (idx : List Nat) (v : Truth)
    (s : List Truth) (hv : v ≠ Truth.maybe) (hn : n < 2 ^ 64)
    (hin : ∀ i ∈ idx, i < s.length) :
    (((Constraint.ExactlyNOf n idx v).Evaluate s).1 = Result.conflict ↔
      (Solution.Count s idx v > n ∨
       Solution.Count s idx v + Solution.Count s idx Truth.maybe < n)) ∧
    (((Constraint.ExactlyNOf n idx v).Evaluate s).1 = Result.conflict →
      ((Constraint.ExactlyNOf n idx v).Evaluate s).2 = s) ∧
    (¬(Solution.Count s idx v > n ∨
        Solution.Count s idx v + Solution.Count s idx Truth.maybe < n) →
      0 < Solution.Count s idx Truth.maybe →
      Solution.Count s idx v = n →
      (Constraint.ExactlyNOf n idx v).Evaluate s =
        (Result.progress, forceMaybes s idx (tnot v)) ∧
      ∀ j, tget (forceMaybes s idx (tnot v)) j =
        if j ∈ idx ∧ tget s j = Truth.maybe then tnot v else tget s j) ∧
    (¬(Solution.Count s idx v > n ∨
        Solution.Count s idx v + Solution.Count s idx Truth.maybe < n) →
      0 < Solution.Count s idx Truth.maybe →
      Solution.Count s idx v ≠ n →
      Solution.Count s idx Truth.maybe = n - Solution.Count s idx v →
      (Constraint.ExactlyNOf n idx v).Evaluate s =
        (Result.progress, forceMaybes s idx v) ∧
      ∀ j, tget (forceMaybes s idx v) j =
        if j ∈ idx ∧ tget s j = Truth.maybe then v else tget s j) ∧
    (¬(Solution.Count s idx v > n ∨
        Solution.Count s idx v + Solution.Count s idx Truth.maybe < n) →
      (Solution.Count s idx Truth.maybe = 0 ∨
       (Solution.Count s idx v ≠ n ∧
        Solution.Count s idx Truth.maybe ≠ n - Solution.Count s idx v)) →
      (Constraint.ExactlyNOf n idx v).Evaluate s = (Result.noChange, s)) := by
  refine ⟨ExactlyN_conflict_iff hn idx v s, ExactlyN_conflict_snd n idx v s,
    fun hnc hbs hms => ?_, fun hnc hbs hms hbse => ?_, fun hnc hcond => ?_⟩
  · push_neg at hnc
    have h1 : ¬(Solution.Count s idx Truth.maybe <
        usub n (Solution.Count s idx v)) := by
      rw [usub_exact hn hnc.1]
      omega
    have h2 : ¬(Solution.Count s idx v > n) := by omega
    refine ⟨?_, fun j => tget_forceMaybes (tnot_ne_maybe hv) hin j⟩
    rw [ExactlyN_eval, if_neg h1, if_neg h2, if_pos hbs, if_pos hms]
  · push_neg at hnc
    have h1 : ¬(Solution.Count s idx Truth.maybe <
        usub n (Solution.Count s idx v)) := by
      rw [usub_exact hn hnc.1]
      omega
    have h2 : ¬(Solution.Count s idx v > n) := by omega
    have hbse' : Solution.Count s idx Truth.maybe =
        usub n (Solution.Count s idx v) := by
      rw [usub_exact hn hnc.1]
      exact hbse
    refine ⟨?_, fun j => tget_forceMaybes hv hin j⟩
    rw [ExactlyN_eval, if_neg h1, if_neg h2, if_pos hbs, if_neg hms,
      if_pos hbse']
  · push_neg at hnc
    have h1 : ¬(Solution.Count s idx Truth.maybe <
        usub n (Solution.Count s idx v)) := by
      rw [usub_exact hn hnc.1]
      omega
    have h2 : ¬(Solution.Count s idx v > n) := by omega
    rw [ExactlyN_eval, if_neg h1, if_neg h2]
    rcases hcond with hb0 | ⟨hne, hne2⟩
    · rw [if_neg (by omega)]
    · by_cases hbs : 0 < Solution.Count s idx Truth.maybe
      · have hne2' : Solution.Count s idx Truth.maybe ≠
            usub n (Solution.Count s idx v) := by
          rw [usub_exact hn hnc.1]
          exact hne2
        rw [if_pos hbs, if_neg hne, if_neg hne2']
      · rw [if_neg hbs]

theorem C2_exactlyN_contract_witness :
    (Truth.yes ≠ Truth.maybe) ∧ ((1 : Nat) < 2 ^ 64) ∧
    (∀ i ∈ ([0, 1] : List Nat),
      i < ([Truth.yes, Truth.maybe] : List Truth).length) ∧
    ((((Constraint.ExactlyNOf 1 [0, 1] Truth.yes).Evaluate
          [Truth.yes, Truth.maybe]).1 = Result.conflict ↔
        (Solution.Count [Truth.yes, Truth.maybe] [0, 1] Truth.yes > 1 ∨
         Solution.Count [Truth.yes, Truth.maybe] [0, 1] Truth.yes +
           Solution.Count [Truth.yes, Truth.maybe] [0, 1] Truth.maybe < 1)) ∧
      (((Constraint.ExactlyNOf 1 [0, 1] Truth.yes).Evaluate
          [Truth.yes, Truth.maybe]).1 = Result.conflict →
        ((Constraint.ExactlyNOf 1 [0, 1] Truth.yes).Evaluate
          [Truth.yes, Truth.maybe]).2 = [Truth.yes, Truth.maybe]) ∧
      (¬(Solution.Count [Truth.yes, Truth.maybe] [0, 1] Truth.yes > 1 ∨
          Solution.Count [Truth.yes, Truth.maybe] [0, 1] Truth.yes +
            Solution.Count [Truth.yes, Truth.maybe] [0, 1] Truth.maybe < 1) →
        0 < Solution.Count [Truth.yes, Truth.maybe] [0, 1] Truth.maybe →
        Solution.Count [Truth.yes, Truth.maybe] [0, 1] Truth.yes = 1 →
        (Constraint.ExactlyNOf 1 [0, 1] Truth.yes).Evaluate
            [Truth.yes, Truth.maybe] =
          (Result.progress,
            forceMaybes [Truth.yes, Truth.maybe] [0, 1] (tnot Truth.yes)) ∧
        ∀ j, tget (forceMaybes [Truth.yes, Truth.maybe] [0, 1]
            (tnot Truth.yes)) j =
          if j ∈ ([0, 1] : List Nat) ∧
              tget [Truth.yes, Truth.maybe] j = Truth.maybe then tnot Truth.yes
          else tget [Truth.yes, Truth.maybe] j) ∧
      (¬(Solution.Count [Truth.yes, Truth.maybe] [0, 1] Truth.yes > 1 ∨
          Solution.Count [Truth.yes, Truth.maybe] [0, 1] Truth.yes +
            Solution.Count [Truth.yes, Truth.maybe] [0, 1] Truth.maybe < 1) →
        0 < Solution.Count [Truth.yes, Truth.maybe] [0, 1] Truth.maybe →
        Solution.Count [Truth.yes, Truth.maybe] [0, 1] Truth.yes ≠ 1 →
        Solution.Count [Truth.yes, Truth.maybe] [0, 1] Truth.maybe =
          1 - Solution.Count [Truth.yes, Truth.maybe] [0, 1] Truth.yes →
        (Constraint.ExactlyNOf 1 [0, 1] Truth.yes).Evaluate
            [Truth.yes, Truth.maybe] =
          (Result.progress,
            forceMaybes [Truth.yes, Truth.maybe] [0, 1] Truth.yes) ∧
        ∀ j, tget (forceMaybes [Truth.yes, Truth.maybe] [0, 1] Truth.yes) j =
          if j ∈ ([0, 1] : List Nat) ∧
              tget [Truth.yes, Truth.maybe] j = Truth.maybe then Truth.yes
          else tget [Truth.yes, Truth.maybe] j) ∧
      (¬(Solution.Count [Truth.yes, Truth.maybe] [0, 1] Truth.yes > 1 ∨
          Solution.Count [Truth.yes, Truth.maybe] [0, 1] Truth.yes +
            Solution.Count [Truth.yes, Truth.maybe] [0, 1] Truth.maybe < 1) →
        (Solution.Count [Truth.yes, Truth.maybe] [0, 1] Truth.maybe = 0 ∨
         (Solution.Count [Truth.yes, Truth.maybe] [0, 1] Truth.yes ≠ 1 ∧
          Solution.Count [Truth.yes, Truth.maybe] [0, 1] Truth.maybe ≠
            1 - Solution.Count [Truth.yes, Truth.maybe] [0, 1]
              Truth.yes)) →
        (Constraint.ExactlyNOf 1 [0, 1] Truth.yes).Evaluate
            [Truth.yes, Truth.maybe] =
          (Result.noChange, [Truth.yes, Truth.maybe]))) :=
  ⟨by decide, by decide, by decide,
   C2_exactlyN_contract 1 [0, 1] Truth.yes [Truth.yes, Truth.maybe]
     (by decide) (by decide) (by decide)⟩

/-- C8 counterexample: with constraints `{Fixed(0, YES), Fixed(0, NO)}` on a
1-slot state, the first propagation-to-fixpoint run ends in `CONFLICT`
leaving the state `[YES]`; a second run on that state reports `CONFLICT` on
its first pass, not `NO_CHANGE` as the claim asserts for every state and
collection. -/
theorem C8_counterexample :
    Puzzle.propagateF 2
        [Constraint.Fixed 0 Truth.yes, Constraint.Fixed 0 Truth.no]
        [Truth.maybe] = some (Result.conflict, [Truth.yes]) ∧
    Puzzle.ApplyConstraints
        [Constraint.Fixed 0 Truth.yes, Constraint.Fixed 0 Truth.no]
        [Truth.yes] = (Result.conflict, [Truth.yes]) ∧
    Result.conflict ≠ Result.noChange := by
  decide

/-- C8 (amended): when the first propagation-to-fixpoint run ends without
`CONFLICT` — that is, its final pass reports `NO_CHANGE` at state `u` —
then a second run on `u` reports `NO_CHANGE` on its first pass
(`ApplyConstraints` is quiescent at `u`) and returns immediately with the
state unchanged.  When the collection is well-formed and the first run ends
in `CONFLICT` at state `u`, some constraint still conflicts at `u`, so the
second run's first pass reports `CONFLICT` again — never `NO_CHANGE` — and
the run returns immediately. -/
theorem C8_propagation_idempotent (slots : Nat) (cs : List Constraint)
    (fuel : Nat) (s u : List Truth) :
    (Puzzle.propagateF fuel cs s = some (Result.noChange, u) →
      Puzzle.ApplyConstraints cs u = (Result.noChange, u) ∧
      ∀ fuel2 : Nat,
        Puzzle.propagateF (fuel2 + 1) cs u = some (Result.noChange, u)) ∧
    ((∀ c ∈ cs, c.WF slots) →
      Puzzle.propagateF fuel cs s = some (Result.conflict, u) →
      (Puzzle.ApplyConstraints cs u).1 = Result.conflict ∧
      ∀ fuel2 : Nat,
        Puzzle.propagateF (fuel2 + 1) cs u =
          some (Result.conflict, (Puzzle.ApplyConstraints cs u).2)) := by
  constructor
  · intro h
    have hfix := Puzzle.propagateF_noChange_fix h
    refine ⟨hfix.1, fun fuel2 => ?_⟩
    unfold Puzzle.propagateF
    rw [hfix.1]
  · intro hwf h
    obtain ⟨w, hw⟩ := propagateF_conflict_pass h
    have hmem : ∃ c ∈ cs, (c.Evaluate u).1 = Result.conflict :=
      applyAux_conflict_member cs w u Result.noChange hwf (by decide) hw
    have hpass : (Puzzle.ApplyConstraints cs u).1 = Result.conflict :=
      applyAux_conflict_of_member cs u Result.noChange hwf hmem
    refine ⟨hpass, fun fuel2 => ?_⟩
    rcases hap : Puzzle.ApplyConstraints cs u with ⟨ra, sa⟩
    have hra : ra = Result.conflict := by
      rw [hap] at hpass
      exact hpass
    subst hra
    unfold Puzzle.propagateF
    rw [hap]

theorem C8_propagation_idempotent_witness :
    (Puzzle.ApplyConstraints [Constraint.Fixed 0 Truth.yes] [Truth.yes] =
        (Result.noChange, [Truth.yes]) ∧
      ∀ fuel2 : Nat,
        Puzzle.propagateF (fuel2 + 1) [Constraint.Fixed 0 Truth.yes]
          [Truth.yes] = some (Result.noChange, [Truth.yes])) ∧
    ((Puzzle.ApplyConstraints
        [Constraint.Fixed 0 Truth.yes, Constraint.Fixed 0 Truth.no]
        [Truth.yes]).1 = Result.conflict ∧
      ∀ fuel2 : Nat,
        Puzzle.propagateF (fuel2 + 1)
            [Constraint.Fixed 0 Truth.yes, Constraint.Fixed 0 Truth.no]
            [Truth.yes] =
          some (Result.conflict,
            (Puzzle.ApplyConstraints
              [Constraint.Fixed 0 Truth.yes, Constraint.Fixed 0 Truth.no]
              [Truth.yes]).2)) :=
  ⟨(C8_propagation_idempotent 1 [Constraint.Fixed 0 Truth.yes] 2
      [Truth.maybe] [Truth.yes]).1 (by decide),
   (C8_propagation_idempotent 1
      [Constraint.Fixed 0 Truth.yes, Constraint.Fixed 0 Truth.no] 2
      [Truth.maybe] [Truth.yes]).2 (by decide) (by decide)⟩

/-- C9 counterexample: in the source the wrapped-subtraction check
`maybes < m_number - matches` is the first statement of
`ExactlyNOf::Evaluate` and the `matches > m_number` comparison the second;
at `n = 1`, `matches = 2`, `maybes = 0` (state `[YES, YES]`, indices
`[0, 1]`) the subtraction wraps to `2^64 - 1` and the first check already
decides `CONFLICT` — the `matches > n` comparison is not evaluated before
the unsigned subtraction, contrary to the claim. -/
theorem C9_counterexample :
    ExactlyN_conflictBranch 1 2 0 = some 1 ∧
    ExactlyN_conflictBranch 1 2 0 ≠ some 2 ∧
    usub 1 2 = 2 ^ 64 - 1 ∧
    Solution.Count [Truth.yes, Truth.yes] [0, 1] Truth.yes = 2 ∧
    Solution.Count [Truth.yes, Truth.yes] [0, 1] Truth.maybe = 0 ∧
    ((Constraint.ExactlyNOf 1 [0, 1] Truth.yes).Evaluate
      [Truth.yes, Truth.yes]).1 = Result.conflict := by
  decide

/-- C9 (amended): the code computes the unsigned subtraction `n - matches`
(mod `2^64`) first and compares `matches > n` only second; nevertheless no
wraparound influences the outcome: for every state and every size_t `n`,
the rule returns `CONFLICT` exactly when `matches > n` or
`matches + maybes < n` under exact integer arithmetic, and the source-order
conflict branch model agrees with `Evaluate`. -/
theorem C9_conflict_exact (n : Nat) (idx : List Nat) (v : Truth)
    (s : List Truth) (hn : n < 2 ^ 64) :
    (((Constraint.ExactlyNOf n idx v).Evaluate s).1 = Result.conflict ↔
      (Solution.Count s idx v > n ∨
       Solution.Count s idx v + Solution.Count s idx Truth.maybe < n)) ∧
    (ExactlyN_conflictBranch n (Solution.Count s idx v)
        (Solution.Count s idx Truth.maybe) ≠ none ↔
      ((Constraint.ExactlyNOf n idx v).Evaluate s).1 = Result.conflict) := by
  refine ⟨ExactlyN_conflict_iff hn idx v s, ?_⟩
  rw [ExactlyN_eval]
  unfold ExactlyN_conflictBranch
  by_cases h1 : Solution.Count s idx Truth.maybe <
      usub n (Solution.Count s idx v)
  · rw [if_pos h1, if_pos h1]
    simp
  · rw [if_neg h1, if_neg h1]
    by_cases h2 : Solution.Count s idx v > n
    · rw [if_pos h2, if_pos h2]
      simp
    · rw [if_neg h2, if_neg h2]
      constructor
      · intro hc
        exact absurd rfl hc
      · intro hc
        exfalso
        split at hc
        · split at hc
          · simp at hc
          · split at hc
            · simp at hc
            · simp at hc
        · simp at hc

theorem C9_conflict_exact_witness :
    ((1 : Nat) < 2 ^ 64) ∧
    ((((Constraint.ExactlyNOf 1 [0] Truth.yes).Evaluate [Truth.maybe]).1 =
        Result.conflict ↔
      (Solution.Count [Truth.maybe] [0] Truth.yes > 1 ∨
       Solution.Count [Truth.maybe] [0] Truth.yes +
         Solution.Count [Truth.maybe] [0] Truth.maybe < 1)) ∧
    (ExactlyN_conflictBranch 1 (Solution.Count [Truth.maybe] [0] Truth.yes)
        (Solution.Count [Truth.maybe] [0] Truth.maybe) ≠ none ↔
      ((Constraint.ExactlyNOf 1 [0] Truth.yes).Evaluate [Truth.maybe]).1 =
        Result.conflict)) :=
  ⟨by decide, C9_conflict_exact 1 [0] Truth.yes [Truth.maybe] (by decide)⟩

/-- C7 counterexample: `{Fixed(0, YES), Fixed(0, NO), Fixed(1, YES)}` and
its reversal are permutations of one another and well formed for 2 slots,
yet propagation-to-fixpoint from the all-`MAYBE` state leaves different
final states (`[YES, MAYBE]` versus `[NO, YES]`): a pass short-circuits at
the first `CONFLICT`, so the mutations already performed depend on the
ordering, falsifying "reaches the same final state under both orderings"
as stated.  (Both orderings do agree that the run ends in `CONFLICT`.) -/
theorem C7_counterexample :
    ([Constraint.Fixed 0 Truth.yes, Constraint.Fixed 0 Truth.no,
      Constraint.Fixed 1 Truth.yes] : List Constraint).Perm
      [Constraint.Fixed 1 Truth.yes, Constraint.Fixed 0 Truth.no,
       Constraint.Fixed 0 Truth.yes] ∧
    (∀ c ∈ ([Constraint.Fixed 0 Truth.yes, Constraint.Fixed 0 Truth.no,
      Constraint.Fixed 1 Truth.yes] : List Constraint), c.WF 2) ∧
    Puzzle.propagateF 3
      [Constraint.Fixed 0 Truth.yes, Constraint.Fixed 0 Truth.no,
       Constraint.Fixed 1 Truth.yes] [Truth.maybe, Truth.maybe] =
      some (Result.conflict, [Truth.yes, Truth.maybe]) ∧
    Puzzle.propagateF 3
      [Constraint.Fixed 1 Truth.yes, Constraint.Fixed 0 Truth.no,
       Constraint.Fixed 0 Truth.yes] [Truth.maybe, Truth.maybe] =
      some (Result.conflict, [Truth.no, Truth.yes]) ∧
    ([Truth.yes, Truth.maybe] : List Truth) ≠ [Truth.no, Truth.yes] := by
  decide

/-- C7 (amended): for a well-formed collection from the standard catalog
and any permutation of it, propagation-to-fixpoint from the same state
ends in `CONFLICT` under one ordering iff it does under the other, and
whenever it does not end in `CONFLICT` the two orderings reach the same
final state; moreover `Solve` returns the same solutions under both
orderings (the identical list, hence the same set).  Only a run that ends
in `CONFLICT` may leave different (discarded) partial states. -/
theorem C7_confluence (slots : Nat) (cs cs' : List Constraint)
    (hperm : cs.Perm cs') (hwf : ∀ c ∈ cs, c.WF slots)
    (s : List Truth) (hs : s.length = slots) (f1 f2 : Nat)
    (r r' : Result) (u u' : List Truth)
    (h1 : Puzzle.propagateF f1 cs s = some (r, u))
    (h2 : Puzzle.propagateF f2 cs' s = some (r', u')) :
    ((r = Result.conflict ↔ r' = Result.conflict) ∧
     (r ≠ Result.conflict → u = u')) ∧
    Puzzle.Solve slots cs = Puzzle.Solve slots cs' :=
  ⟨propagate_confluent hperm hwf hs h1 h2, Solve_perm hperm hwf⟩

theorem C7_confluence_witness :
    ([Constraint.Fixed 0 Truth.yes,
      Constraint.ExactlyNOf 1 [0, 1] Truth.yes] : List Constraint).Perm
      [Constraint.ExactlyNOf 1 [0, 1] Truth.yes,
       Constraint.Fixed 0 Truth.yes] ∧
    (∀ c ∈ ([Constraint.Fixed 0 Truth.yes,
      Constraint.ExactlyNOf 1 [0, 1] Truth.yes] : List Constraint),
      c.WF 2) ∧
    ([Truth.maybe, Truth.maybe] : List Truth).length = 2 ∧
    Puzzle.propagateF 3
      [Constraint.Fixed 0 Truth.yes, Constraint.ExactlyNOf 1 [0, 1] Truth.yes]
      [Truth.maybe, Truth.maybe] =
      some (Result.noChange, [Truth.yes, Truth.no]) ∧
    Puzzle.propagateF 3
      [Constraint.ExactlyNOf 1 [0, 1] Truth.yes, Constraint.Fixed 0 Truth.yes]
      [Truth.maybe, Truth.maybe] =
      some (Result.noChange, [Truth.yes, Truth.no]) ∧
    (((Result.noChange = Result.conflict ↔
        Result.noChange = Result.conflict) ∧
      (Result.noChange ≠ Result.conflict →
        ([Truth.yes, Truth.no] : List Truth) = [Truth.yes, Truth.no])) ∧
     Puzzle.Solve 2
       [Constraint.Fixed 0 Truth.yes,
        Constraint.ExactlyNOf 1 [0, 1] Truth.yes] =
     Puzzle.Solve 2
       [Constraint.ExactlyNOf 1 [0, 1] Truth.yes,
        Constraint.Fixed 0 Truth.yes]) :=
  ⟨by decide, by decide, by decide, by decide, by decide,
   C7_confluence 2
     [Constraint.Fixed 0 Truth.yes, Constraint.ExactlyNOf 1 [0, 1] Truth.yes]
     [Constraint.ExactlyNOf 1 [0, 1] Truth.yes, Constraint.Fixed 0 Truth.yes]
     (by decide) (by decide) [Truth.maybe, Truth.maybe] (by decide) 3 3
     Result.noChange Result.noChange [Truth.yes, Truth.no]
     [Truth.yes, Truth.no] (by decide) (by decide)⟩
